import Mathlib

/-!
Verification of the read path of the mini-lsm storage engine
(`mini-lsm-starter`): block codec, Bloom filter, block-metadata codec,
SST open / block search, SST iterator seek, and the k-way merge iterator.

Machine integers are modelled as `Nat` with explicit truncation (`% 2 ^ w`)
exactly where the Rust source performs an `as` cast or wrapping arithmetic.
Byte strings (`Vec<u8>`, `Bytes`, keys, values) are modelled as `List Nat`
whose elements are below 256 where that matters.  Fallible operations
return `Option` (`none` = the Rust code panics) or a three-valued outcome
type distinguishing a surfaced `Err` from a panic.
-/

/-- A byte string (`Vec<u8>` / `Bytes` / `&[u8]`). -/
abbrev ByteStr := List Nat

/-! ## Big-endian integer encoding (the `bytes` crate's `put_u16`/`put_u32`,
`get_u16`/`get_u32`; all integers in the file format are big-endian). -/

/-- `put_u16` big-endian: two bytes, most significant first.  Taking each
byte `% 256` makes the definition also model the Rust `as u16` truncating
cast composed with `put_u16` (for `v < 2 ^ 16` it is the exact encoding). -/
def enc16 (v : Nat) : ByteStr := [v / 256 % 256, v % 256]

/-- `put_u32` big-endian: four bytes, most significant first (with the same
truncation convention as `enc16`). -/
def enc32 (v : Nat) : ByteStr :=
  [v / 2 ^ 24 % 256, v / 2 ^ 16 % 256, v / 2 ^ 8 % 256, v % 256]

/-- `get_u16` big-endian: read the first two bytes of the buffer. -/
def readU16 (l : ByteStr) : Nat := 256 * l.getD 0 0 + l.getD 1 0

/-- `get_u32` big-endian: read the first four bytes of the buffer. -/
def readU32 (l : ByteStr) : Nat :=
  2 ^ 24 * l.getD 0 0 + 2 ^ 16 * l.getD 1 0 + 2 ^ 8 * l.getD 2 0 + l.getD 3 0

/-- Flip bit `j` of byte `p` of a buffer (the single-bit corruptions of the
checksum claims). -/
def flipBit (l : ByteStr) (p j : Nat) : ByteStr :=
  l.set p (l.getD p 0 ^^^ 2 ^ j)

/-- All elements of a byte string are actual bytes. -/
def isBytes (l : ByteStr) : Prop := ∀ b ∈ l, b < 256

instance (l : ByteStr) : Decidable (isBytes l) := by
  unfold isBytes; infer_instance

/-! ## CRC32 (the `crc32fast::hash` function: CRC-32/ISO-HDLC, reflected,
polynomial `0xEDB88320`, initial value `0xFFFFFFFF`, final xor
`0xFFFFFFFF`), implemented bitwise over `Nat` states below `2 ^ 32`. -/

/-- One bit step of the reflected CRC-32 division. -/
def crcStep (c : Nat) : Nat :=
  if c % 2 = 1 then c / 2 ^^^ 0xEDB88320 else c / 2

/-- Process one byte: xor it into the low bits of the state, then run eight
bit steps. -/
def crcByte (c b : Nat) : Nat := crcStep^[8] (c ^^^ b)

/-- `crc32fast::hash`. -/
def crc32 (data : ByteStr) : Nat :=
  data.foldl crcByte 0xFFFFFFFF ^^^ 0xFFFFFFFF

/-! ## Byte-string comparison (`[u8]::cmp`: lexicographic over raw bytes,
a strict prefix is smaller).  This is the order used by `KeySlice` /
`KeyBytes` comparisons throughout the source. -/

/-- `[u8]::cmp`. -/
def bsCmp : ByteStr → ByteStr → Ordering
  | [], [] => .eq
  | [], _ :: _ => .lt
  | _ :: _, [] => .gt
  | a :: as, b :: bs =>
    if a < b then .lt else if b < a then .gt else bsCmp as bs

/-- `a < b` on byte strings. -/
def bsLt (a b : ByteStr) : Prop := bsCmp a b = .lt

/-- `a ≤ b` on byte strings. -/
def bsLe (a b : ByteStr) : Prop := bsCmp a b ≠ .gt

instance (a b : ByteStr) : Decidable (bsLt a b) := by unfold bsLt; infer_instance

instance (a b : ByteStr) : Decidable (bsLe a b) := by unfold bsLe; infer_instance

/-! ## Block codec (`src/block.rs`)

`Block { data: Vec<u8>, offsets: Vec<u16> }`.  `encode` emits
`data ++ offsets (u16 BE each) ++ count (u16 BE)`; `decode` reads the
trailing count, slices off the offset array, and keeps the remainder as
`data`.  `decode` returns `Option`: `none` models the Rust panics (the
`data.len() - SIZEOF_U16` underflow for inputs shorter than two bytes, and
the `data_end` underflow when the declared count overflows the buffer). -/

structure Block where
  data : ByteStr
  offsets : List Nat
deriving DecidableEq

/-- `Block::encode`: `data ++ each offset as u16 BE ++ offsets.len() as u16`. -/
def blockEncode (b : Block) : ByteStr :=
  b.data ++ (b.offsets.flatMap enc16) ++ enc16 b.offsets.length

/-- Parse `count` consecutive big-endian `u16`s (the `chunks(SIZEOF_U16)`
/ `get_u16` loop of `Block::decode`). -/
def parseU16s : ByteStr → List Nat
  | a :: b :: rest => (256 * a + b) :: parseU16s rest
  | _ => []

/-- `Block::decode`. -/
def blockDecode (bytes : ByteStr) : Option Block :=
  if bytes.length < 2 then none
  else
    let count := readU16 (bytes.drop (bytes.length - 2))
    if bytes.length < 2 * count + 2 then none
    else
      let dataEnd := bytes.length - 2 - count * 2
      some ⟨bytes.take dataEnd, parseU16s ((bytes.drop dataEnd).take (count * 2))⟩

/-! ## Bloom filter (`src/table/bloom.rs`)

`Bloom { filter: Bytes, k: u8 }` with the `BitSlice`/`BitSliceMut` helpers:
bit `idx` lives in byte `idx / 8` at offset `idx % 8`. -/

structure Bloom where
  filter : ByteStr
  k : Nat
deriving DecidableEq

/-- `set_bit idx true`: or `1 << (idx % 8)` into byte `idx / 8`. -/
def setBit (l : ByteStr) (idx : Nat) : ByteStr :=
  l.set (idx / 8) (l.getD (idx / 8) 0 ||| 2 ^ (idx % 8))

/-- `get_bit idx`: test `byte & (1 << (idx % 8)) != 0`. -/
def getBit (l : ByteStr) (idx : Nat) : Bool :=
  l.getD (idx / 8) 0 &&& 2 ^ (idx % 8) != 0

/-- The per-key probe increment: `delta = (h >> 17) | (h << 15)` on `u32`
(a rotate right by 17). -/
def bloomDelta (h : Nat) : Nat := h >>> 17 ||| h <<< 15 % 2 ^ 32

/-- The inner probe loop of `build_from_key_hashes`, with the per-key
`delta` already fixed: set the bit at `h % nbits`, then advance `h` by
`delta` with 32-bit wrapping, `k` times. -/
def bloomSetLoop (nbits delta : Nat) (k h : Nat) (filter : ByteStr) : ByteStr :=
  match k with
  | 0 => filter
  | k' + 1 => bloomSetLoop nbits delta k' ((h + delta) % 2 ^ 32) (setBit filter (h % nbits))

/-- The per-key body of `build_from_key_hashes`: `delta` is computed once
from the key's initial hash (before the loop), then `k` bits are set. -/
def bloomSetKey (k nbits : Nat) (h : Nat) (filter : ByteStr) : ByteStr :=
  bloomSetLoop nbits (bloomDelta h) k h filter

/-- The number of hash functions chosen by `build_from_key_hashes`:
`k = (bits_per_key as f64 * 0.69) as u32; k.min(30).max(1)`.  The float
computation truncates toward zero; `bits_per_key * 69 / 100` in `Nat`
agrees with it for every input (the float product is within relative error
`2 ^ -52` of the exact value, which is never that close to an integer it
does not equal, and above the clamp both sides give 30). -/
def bloomK (bitsPerKey : Nat) : Nat := (bitsPerKey * 69 / 100).min 30 |>.max 1

/-- `Bloom::build_from_key_hashes`. -/
def bloomBuild (keys : List Nat) (bitsPerKey : Nat) : Bloom :=
  let k := bloomK bitsPerKey
  let nbits := (keys.length * bitsPerKey).max 64
  let nbytes := (nbits + 7) / 8
  let nbits := nbytes * 8
  let filter := keys.foldl (fun f h => bloomSetKey k nbits h f) (List.replicate nbytes 0)
  ⟨filter, k⟩

/-- The inner probe loop of `may_contain`, with the per-key `delta`
already fixed: `false` as soon as a probed bit is clear. -/
def bloomCheckLoop (nbits delta : Nat) (k h : Nat) (filter : ByteStr) : Bool :=
  match k with
  | 0 => true
  | k' + 1 =>
    if getBit filter (h % nbits) then
      bloomCheckLoop nbits delta k' ((h + delta) % 2 ^ 32) filter
    else false

/-- The probe sequence of `may_contain`: `delta` is computed once from the
initial hash, then `k` positions are probed.  `nbits` here is the decoded
bit length truncated by the `nbits as u32` cast of the source. -/
def bloomCheckKey (k nbits : Nat) (h : Nat) (filter : ByteStr) : Bool :=
  bloomCheckLoop nbits (bloomDelta h) k h filter

/-- `Bloom::may_contain`.  Returns `none` when the Rust code panics: for a
filter of `2 ^ 29` bytes or more the `self.filter.bit_len() as u32` cast
truncates, and when the truncated value is zero `h % 0` panics. -/
def bloomMayContain (b : Bloom) (h : Nat) : Option Bool :=
  if b.k > 30 then some true
  else
    let nbits := 8 * b.filter.length % 2 ^ 32
    if nbits = 0 then none
    else some (bloomCheckKey b.k nbits h b.filter)

/-- `Bloom::decode` (checksum verification, then split `filter ++ k`).
`DecRes` distinguishes a surfaced `Err` from a panic. -/
inductive DecRes (α : Type) where
  | ok (a : α)
  | err
  | panik
deriving DecidableEq

/-- `Bloom::decode`: verify `CRC32(filter ++ k)` stored in the last four
bytes, then split off the one-byte `k`.  `panik` models the out-of-range
slices for buffers shorter than the checksum (or, after a passing
checksum, shorter than five bytes). -/
def bloomDecode (buf : ByteStr) : DecRes Bloom :=
  if buf.length < 4 then .panik
  else if readU32 (buf.drop (buf.length - 4)) ≠ crc32 (buf.take (buf.length - 4)) then .err
  else if buf.length < 5 then .panik
  else .ok ⟨buf.take (buf.length - 5), buf.getD (buf.length - 5) 0⟩

/-! ## Block metadata codec (`src/table.rs`, `BlockMeta`)

Encoding: `count (u32) ++ per entry (offset u32, first_key_len u16,
first_key, last_key_len u16, last_key) ++ CRC32` of everything after the
count. -/

structure BlockMeta where
  offset : Nat
  first_key : ByteStr
  last_key : ByteStr
deriving DecidableEq

/-- One entry of the encoded meta section. -/
def encEntry (m : BlockMeta) : ByteStr :=
  enc32 m.offset ++ enc16 m.first_key.length ++ m.first_key ++
    enc16 m.last_key.length ++ m.last_key

/-- The entry region of the encoded meta section (everything between the
count and the checksum). -/
def encEntries (ms : List BlockMeta) : ByteStr := ms.flatMap encEntry

/-- `BlockMeta::encode_block_meta` (into a fresh buffer): count, entries,
then `crc32fast::hash` of the bytes after the count. -/
def encodeBlockMeta (ms : List BlockMeta) : ByteStr :=
  enc32 ms.length ++ encEntries ms ++ enc32 (crc32 (encEntries ms))

/-- The entry-parsing loop of `decode_block_meta`: read `offset (u32)`,
`first_key_len (u16)`, the key, `last_key_len (u16)`, the key.  `none`
models the `bytes` crate panics on exhausted buffers. -/
def parseEntry (buf : ByteStr) : Option (BlockMeta × ByteStr) :=
  if 4 ≤ buf.length then
    let off := readU32 buf
    let b1 := buf.drop 4
    if 2 ≤ b1.length then
      let fl := readU16 b1
      let b2 := b1.drop 2
      if fl ≤ b2.length then
        let fk := b2.take fl
        let b3 := b2.drop fl
        if 2 ≤ b3.length then
          let ll := readU16 b3
          let b4 := b3.drop 2
          if ll ≤ b4.length then some (⟨off, fk, b4.take ll⟩, b4.drop ll)
          else none
        else none
      else none
    else none
  else none

/-- Parse `n` consecutive entries. -/
def parseEntries : Nat → ByteStr → Option (List BlockMeta × ByteStr)
  | 0, buf => some ([], buf)
  | n + 1, buf =>
    match parseEntry buf with
    | none => none
    | some (m, rest) =>
      match parseEntries n rest with
      | none => none
      | some (ms, r) => some (m :: ms, r)

/-- `BlockMeta::decode_block_meta`: read the count, hash everything after
it except the trailing four bytes, parse the entries, and compare the
stored checksum (read at wherever the cursor ended up) with the computed
one.  `err` is the `bail!("meta checksum mismatched")` path; `panik` the
buffer-exhaustion panics. -/
def decodeBlockMeta (buf : ByteStr) : DecRes (List BlockMeta) :=
  if buf.length < 4 then .panik
  else
    let num := readU32 buf
    let rest := buf.drop 4
    if rest.length < 4 then .panik
    else
      let chk := crc32 (rest.take (rest.length - 4))
      match parseEntries num rest with
      | none => .panik
      | some (ms, r) =>
        if r.length < 4 then .panik
        else if readU32 r ≠ chk then .err
        else .ok ms

/-! ## SST open protocol (`src/table.rs`, `SsTable::open`)

The file is a byte list; `FileObject::read` is a positional read that
errors (surfaced through `?`) when the requested range escapes the file.
`u64` offset arithmetic wraps (release-mode Rust semantics), modelled by
`wsub64`. -/

/-- Wrapping `u64` subtraction. -/
def wsub64 (a b : Nat) : Nat := (a + (2 ^ 64 - b % 2 ^ 64)) % 2 ^ 64

/-- `FileObject::read(offset, len)` via `read_exact_at`: fails when the
range `[offset, offset + len)` is not inside the file. -/
def fileRead (file : ByteStr) (off len : Nat) : Option ByteStr :=
  if off + len ≤ file.length then some ((file.drop off).take len) else none

/-- The reads and decodes of `SsTable::open` up to the construction of the
table: trailing `bloom_offset`, bloom section, `block_meta_offset`, meta
section. -/
def openStage (file : ByteStr) : DecRes (Bloom × Nat × List BlockMeta) :=
  let len := file.length
  match fileRead file (wsub64 len 4) 4 with
  | none => .err
  | some rawBloomOff =>
    let bloomOffset := readU32 rawBloomOff
    match fileRead file bloomOffset (wsub64 (wsub64 len 4) bloomOffset) with
    | none => .err
    | some rawBloom =>
      match bloomDecode rawBloom with
      | .err => .err
      | .panik => .panik
      | .ok bloomFilter =>
        match fileRead file (wsub64 bloomOffset 4) 4 with
        | none => .err
        | some rawMetaOff =>
          let metaOffset := readU32 rawMetaOff
          match fileRead file metaOffset (wsub64 (wsub64 bloomOffset 4) metaOffset) with
          | none => .err
          | some rawMeta =>
            match decodeBlockMeta rawMeta with
            | .err => .err
            | .panik => .panik
            | .ok metas => .ok (bloomFilter, metaOffset, metas)

/-- The fields of an opened `SsTable` relevant to the read path. -/
structure SsTable where
  block_meta : List BlockMeta
  block_meta_offset : Nat
  first_key : ByteStr
  last_key : ByteStr
  bloom : Option Bloom
deriving DecidableEq

/-- Outcome of `SsTable::open`: a table, a surfaced `Err`, or a panic. -/
inductive OpenOutcome where
  | ok (t : SsTable)
  | err
  | panik
deriving DecidableEq

/-- `SsTable::open`.  After the reads and decodes succeed, the source
caches `block_meta.first().unwrap().first_key` and
`block_meta.last().unwrap().last_key`; both `unwrap`s panic when the
decoded meta list is empty. -/
def sstOpen (file : ByteStr) : OpenOutcome :=
  match openStage file with
  | .err => .err
  | .panik => .panik
  | .ok (bloomFilter, metaOffset, metas) =>
    match metas with
    | [] => .panik
    | m0 :: rest =>
      .ok ⟨m0 :: rest, metaOffset, m0.first_key, ((m0 :: rest).getLastD m0).last_key,
        some bloomFilter⟩

/-- `SsTable::find_block_idx`:
`partition_point(|meta| meta.first_key <= key).saturating_sub(1)`.
`partition_point` on a predicate-partitioned slice (guaranteed here by the
sortedness invariants on block metadata) returns the number of leading
elements satisfying the predicate, i.e. the `takeWhile` length; `Nat`
subtraction is saturating. -/
def findBlockIdx (metas : List BlockMeta) (key : ByteStr) : Nat :=
  (metas.takeWhile fun m => bsLe m.first_key key).length - 1

/-! ## Block iterator and SST iterator (`src/table/iterator.rs`)

The SST iterator's inner cursor. Modelled from the spec: `BlockIterator`
(`src/block/iterator.rs` is not among the sources).  Per §4.2 it holds a
decoded block and an entry index; `create_and_seek_to_first` positions at
entry 0; `create_and_seek_to_key(block, target)` positions at the smallest
index `i` with `key(i) ≥ target` (one past the last entry, hence invalid,
when no such entry exists); `is_valid` is true iff the index is in range.
A block is viewed here as its decoded list of (key, value) entries. -/

structure BlockIter where
  entries : List (ByteStr × ByteStr)
  idx : Nat
deriving DecidableEq

/-- Modelled from the spec: `BlockIterator::create_and_seek_to_first`. -/
def blockSeekToFirst (entries : List (ByteStr × ByteStr)) : BlockIter :=
  ⟨entries, 0⟩

/-- Modelled from the spec: `BlockIterator::create_and_seek_to_key`, the
smallest index whose key is `≥ target` (for a sorted block this is the
`takeWhile` length). -/
def blockSeekToKey (entries : List (ByteStr × ByteStr)) (target : ByteStr) : BlockIter :=
  ⟨entries, (entries.takeWhile fun e => bsLt e.1 target).length⟩

/-- Modelled from the spec: `BlockIterator::is_valid`. -/
def blockIterValid (it : BlockIter) : Bool := it.idx < it.entries.length

/-- The current entry of a block iterator (meaningful while valid). -/
def blockIterEntry (it : BlockIter) : ByteStr × ByteStr :=
  it.entries.getD it.idx ([], [])

/-- An opened SST as seen by the iterator: its block metadata plus the
decoded entries of each data block (`read_block_cached idx` returns the
decoded block `idx`). -/
structure SstView where
  metas : List BlockMeta
  blocks : List (List (ByteStr × ByteStr))
deriving DecidableEq

/-- `SsTableIterator::seek_to_key_inner`: locate the candidate block with
`find_block_idx`, seek inside it, and on an invalid inner iterator advance
to the first entry of the next block when one exists
(`num_of_blocks = block_meta.len()`). -/
def seekToKeyInner (t : SstView) (key : ByteStr) : Nat × BlockIter :=
  let blkIdx := findBlockIdx t.metas key
  let blkIter := blockSeekToKey (t.blocks.getD blkIdx []) key
  if blockIterValid blkIter then (blkIdx, blkIter)
  else if blkIdx + 1 < t.metas.length then
    (blkIdx + 1, blockSeekToFirst (t.blocks.getD (blkIdx + 1) []))
  else (blkIdx + 1, blkIter)

/-- The claim's description of `create_and_seek_to_key`, written from its
words: set `block_idx = find_block_idx(K)`, seek within that block; if the
inner iterator is invalid, increment `block_idx` and, if still less than
`num_of_blocks`, position at the first entry of that next block. -/
def seekToKeyDescr (t : SstView) (key : ByteStr) : Nat × BlockIter :=
  let i := findBlockIdx t.metas key
  let inner := blockSeekToKey (t.blocks.getD i []) key
  if blockIterValid inner then (i, inner)
  else
    let i := i + 1
    if i < t.metas.length then (i, blockSeekToFirst (t.blocks.getD i []))
    else (i, inner)

/-! ## Merge iterator (`src/iterators/merge_iterator.rs`)

A source iterator (`HeapWrapper`) is its list position (`idx`) plus the
stream of remaining (key, value) pairs; `is_valid` is nonemptiness and
`key`/`value` read the head.  The `BinaryHeap` is modelled as the list of
its members: the `HeapWrapper` ordering is total and, on heaps whose
members carry distinct indices, strict, so `peek`/`peek_mut`/`pop` all
observe the unique minimum under (key, index) — `partial_cmp` compares
keys, breaks ties by list index, and reverses, turning Rust's max-heap
into a min-heap on (key, index). -/

structure Src where
  idx : Nat
  entries : List (ByteStr × ByteStr)
deriving DecidableEq

/-- `is_valid` of a source iterator. -/
def srcValid (s : Src) : Bool := !s.entries.isEmpty

/-- `key()` of a source iterator (meaningful while valid; the heap and the
comparator only ever touch valid sources). -/
def srcKey (s : Src) : ByteStr := (s.entries.headD ([], [])).1

/-- `value()` of a source iterator. -/
def srcVal (s : Src) : ByteStr := (s.entries.headD ([], [])).2

/-- `next()` of a source iterator. -/
def srcAdvance (s : Src) : Src := ⟨s.idx, s.entries.tail⟩

/-- The (reversed `HeapWrapper`) order the heap pops by: smaller key
first, ties broken by smaller list index. -/
def srcLe (a b : Src) : Prop :=
  bsLt (srcKey a) (srcKey b) ∨ (srcKey a = srcKey b ∧ a.idx ≤ b.idx)

/-- Strict version of `srcLe`. -/
def srcLt (a b : Src) : Prop :=
  bsLt (srcKey a) (srcKey b) ∨ (srcKey a = srcKey b ∧ a.idx < b.idx)

instance (a b : Src) : Decidable (srcLe a b) := by unfold srcLe; infer_instance

instance (a b : Src) : Decidable (srcLt a b) := by unfold srcLt; infer_instance

/-- `BinaryHeap::pop` (and, with the remainder, `peek`): the minimum under
`srcLe` together with the rest of the heap. -/
def popMin : List Src → Option (Src × List Src)
  | [] => none
  | s :: rest =>
    match popMin rest with
    | none => some (s, [])
    | some (m, r) => if srcLe s m then some (s, rest) else some (m, s :: r)

/-- Total number of entries remaining in a list of sources. -/
def totalLen (l : List Src) : Nat := (l.map fun s => s.entries.length).sum

/-- The duplicate-skipping loop at the top of `MergeIterator::next`: while
the heap's top has the same key as `current`, advance it, popping it if it
becomes invalid.  Structured with fuel (any fuel above `totalLen` is
enough; the wrapper below supplies it) so that the definition computes. -/
def skipDupsF (fuel : Nat) (ck : ByteStr) (heap : List Src) : List Src :=
  match fuel with
  | 0 => heap
  | fuel + 1 =>
    match popMin heap with
    | none => heap
    | some (m, rest) =>
      if srcKey m = ck then
        let m' := srcAdvance m
        if m'.entries.isEmpty then skipDupsF fuel ck rest
        else skipDupsF fuel ck (m' :: rest)
      else heap

/-- `MergeIterator { iters: BinaryHeap<HeapWrapper>, current }`. -/
structure MergeSt where
  current : Option Src
  heap : List Src
deriving DecidableEq

/-- `MergeIterator::is_valid`. -/
def mergeValid (st : MergeSt) : Bool :=
  match st.current with
  | some c => srcValid c
  | none => false

/-- `MergeIterator::create`: empty list → empty state; all sources invalid
→ the last source (at wrapper index 0) becomes `current` with an empty
heap; otherwise push the valid sources with their list positions and pop
the minimum into `current`. -/
def mergeCreate (iters : List (List (ByteStr × ByteStr))) : MergeSt :=
  if iters.isEmpty then ⟨none, []⟩
  else if iters.all List.isEmpty then
    ⟨some ⟨0, iters.getLastD []⟩, []⟩
  else
    let heap := (iters.enum.map fun p => Src.mk p.1 p.2).filter srcValid
    match popMin heap with
    | some (m, rest) => ⟨some m, rest⟩
    | none => ⟨none, heap⟩

/-- `MergeIterator::next`: skip heap tops equal to the current key,
advance `current`, replace it from the heap if it became invalid, and
otherwise swap with the heap top when the top is strictly smaller.  (With
pure list sources the inner `next` calls cannot error.)  Only reached with
a valid `current`; the degenerate branches return the state unchanged. -/
def mergeNext (st : MergeSt) : MergeSt :=
  match st.current with
  | none => st
  | some c =>
    if c.entries.isEmpty then st
    else
      let heap1 := skipDupsF (totalLen st.heap + 1) (srcKey c) st.heap
      let c' := srcAdvance c
      if c'.entries.isEmpty then
        match popMin heap1 with
        | some (m, rest) => ⟨some m, rest⟩
        | none => ⟨some c', heap1⟩
      else
        match popMin heap1 with
        | some (m, rest) => if srcLt m c' then ⟨some m, c' :: rest⟩ else ⟨some c', heap1⟩
        | none => ⟨some c', heap1⟩

/-- Remaining-entry measure of a merge state; each `mergeNext` on a valid
state consumes at least the head of `current`. -/
def mergeMeasure (st : MergeSt) : Nat :=
  (match st.current with
   | some c => c.entries.length
   | none => 0) + totalLen st.heap

/-- The observable stream: while `is_valid()`, record `(key(), value())`
and call `next()`.  Fueled; `mergeEmitted` supplies sufficient fuel. -/
def emittedF (fuel : Nat) (st : MergeSt) : List (ByteStr × ByteStr) :=
  match fuel with
  | 0 => []
  | fuel + 1 =>
    match st.current with
    | none => []
    | some c =>
      if c.entries.isEmpty then []
      else (srcKey c, srcVal c) :: emittedF fuel (mergeNext st)

/-- The sequence of (key, value) pairs emitted by a merge iterator, from
its current state until `is_valid()` turns false. -/
def mergeEmitted (st : MergeSt) : List (ByteStr × ByteStr) :=
  emittedF (mergeMeasure st + 1) st

/-- All sources a merge state holds: `current` (when present) and the heap
members. -/
def allSrcs (st : MergeSt) : List Src :=
  (match st.current with
   | some c => [c]
   | none => []) ++ st.heap

/-- A source yields keys in strictly increasing order. -/
def srcSorted (entries : List (ByteStr × ByteStr)) : Prop :=
  (entries.map Prod.fst).Pairwise bsLt

instance (entries : List (ByteStr × ByteStr)) : Decidable (srcSorted entries) := by
  unfold srcSorted; infer_instance

/-! ## Auxiliary predicates used by the claims -/

/-- Every bit set in `f` is set in `g` (Bloom filters only ever grow while
being built). -/
def bitsSubset (f g : ByteStr) : Prop :=
  ∀ i, getBit f i = true → getBit g i = true

/-- Well-formed block metadata: every field fits the width of its encoded
form (offsets in `u32`, key lengths in `u16`) and keys consist of bytes. -/
def metaWf (ms : List BlockMeta) : Prop :=
  ∀ m ∈ ms, m.offset < 2 ^ 32 ∧ m.first_key.length < 2 ^ 16 ∧
    m.last_key.length < 2 ^ 16 ∧ isBytes m.first_key ∧ isBytes m.last_key

instance (ms : List BlockMeta) : Decidable (metaWf ms) := by
  unfold metaWf; infer_instance

/-- The byte positions inside one encoded entry that hold the offset field
or key content (everything except the two length fields). -/
def entryContentLocal (m : BlockMeta) : List Nat :=
  List.range 4 ++ (List.range m.first_key.length).map (fun q => 6 + q) ++
    (List.range m.last_key.length).map (fun q => 8 + m.first_key.length + q)

/-- Positions within the entry region holding offset fields or key bytes. -/
def entriesContentPos : List BlockMeta → List Nat
  | [] => []
  | m :: ms =>
    entryContentLocal m ++ (entriesContentPos ms).map (fun q => (encEntry m).length + q)

/-- Positions within the full `encode_block_meta` output that hold entry
content (offset fields, key bytes) or the trailing CRC — i.e. every byte
outside the count field and the key-length fields. -/
def metaContentPositions (ms : List BlockMeta) : List Nat :=
  (entriesContentPos ms).map (fun q => 4 + q) ++
    (List.range 4).map (fun q => 4 + (encEntries ms).length + q)

/-- The invariants `MergeIterator` maintains between `next()` calls (for
states reachable from `create` on strictly-increasing sources): heap
members are valid; all streams are strictly increasing; indices are
distinct; `current` is the (key, index)-minimum; and an invalid or absent
`current` goes with an empty heap. -/
structure MergeInv (st : MergeSt) : Prop where
  heap_valid : ∀ s ∈ st.heap, s.entries ≠ []
  sorted : ∀ s ∈ allSrcs st, srcSorted s.entries
  distinct : (allSrcs st).Pairwise (fun a b => a.idx ≠ b.idx)
  minimal : ∀ c, st.current = some c → ∀ s ∈ st.heap, srcLe c s
  none_heap : st.current = none → st.heap = []
  invalid_heap : ∀ c, st.current = some c → c.entries = [] → st.heap = []

/-- `(i, v)` identifies the merge-wide owner of key `K` in state `st`:
some source with index `i` still holds `(K, v)`, and no source holding `K`
has a smaller index. -/
def isOwner (K : ByteStr) (i : Nat) (v : ByteStr) (st : MergeSt) : Prop :=
  (∃ s ∈ allSrcs st, s.idx = i ∧ (K, v) ∈ s.entries) ∧
    ∀ s ∈ allSrcs st, (∃ w, (K, w) ∈ s.entries) → i ≤ s.idx

/-! # Theorems -/

/-! ## Encoding basics -/

theorem length_enc16 (v : Nat) : (enc16 v).length = 2 := rfl

theorem length_enc32 (v : Nat) : (enc32 v).length = 4 := rfl

theorem readU16_enc16 (v : Nat) (h : v < 2 ^ 16) (t : ByteStr) :
    readU16 (enc16 v ++ t) = v := by
  simp [readU16, enc16]
  omega

theorem readU32_enc32 (v : Nat) (h : v < 2 ^ 32) (t : ByteStr) :
    readU32 (enc32 v ++ t) = v := by
  simp [readU32, enc32]
  omega

theorem isBytes_enc16 (v : Nat) : isBytes (enc16 v) := by
  unfold isBytes enc16
  intro b hb
  simp at hb
  omega

theorem isBytes_enc32 (v : Nat) : isBytes (enc32 v) := by
  unfold isBytes enc32
  intro b hb
  simp at hb
  omega

theorem length_flatMap_enc16 (os : List Nat) : (os.flatMap enc16).length = 2 * os.length := by
  induction os with
  | nil => rfl
  | cons o os ih => simp [List.flatMap_cons, ih, enc16]; omega

theorem parseU16s_flatMap_enc16 (os : List Nat) (h : ∀ o ∈ os, o < 2 ^ 16) :
    parseU16s (os.flatMap enc16) = os := by
  induction os with
  | nil => rfl
  | cons o os ih =>
    have ho : o < 2 ^ 16 := h o (List.mem_cons_self o os)
    have : (o :: os).flatMap enc16 = (o / 256 % 256) :: (o % 256) :: os.flatMap enc16 := by
      simp [List.flatMap_cons, enc16]
    rw [this, parseU16s]
    rw [ih fun x hx => h x (List.mem_cons_of_mem o hx)]
    congr 1
    omega

/-! ## C5: block round-trip -/

/-- C5: for every block with entry count and offsets representable in 16
bits (as any block produced by `BlockBuilder::build` is),
`Block::decode (Block::encode B)` recovers `B`: equal `data`, equal
`offsets`. -/
theorem block_roundtrip (B : Block) (hne : B.offsets ≠ [])
    (hcnt : B.offsets.length < 2 ^ 16) (hoff : ∀ o ∈ B.offsets, o < 2 ^ 16) :
    blockDecode (blockEncode B) = some B := by
  obtain ⟨D, os⟩ := B
  simp only at hcnt hoff
  have hflen : (os.flatMap enc16).length = 2 * os.length := length_flatMap_enc16 os
  have e1 : blockEncode ⟨D, os⟩ = (D ++ os.flatMap enc16) ++ enc16 os.length := rfl
  have hlen : (blockEncode ⟨D, os⟩).length = D.length + 2 * os.length + 2 := by
    rw [e1]
    simp [hflen, enc16]
    omega
  have hdrop : (blockEncode ⟨D, os⟩).drop (D.length + 2 * os.length + 2 - 2) =
      enc16 os.length := by
    rw [e1]
    exact List.drop_left' (by simp [hflen])
  have hcount : readU16 (enc16 os.length) = os.length := by
    have := readU16_enc16 os.length hcnt []
    simpa using this
  have htake : (blockEncode ⟨D, os⟩).take D.length = D := by
    rw [e1, List.append_assoc]
    exact List.take_left' rfl
  have hdrop2 : (blockEncode ⟨D, os⟩).drop D.length = os.flatMap enc16 ++ enc16 os.length := by
    rw [e1, List.append_assoc]
    exact List.drop_left' rfl
  have htake2 : (os.flatMap enc16 ++ enc16 os.length).take (os.length * 2) =
      os.flatMap enc16 := List.take_left' (by omega)
  simp only [blockDecode, hlen]
  rw [if_neg (by omega), hdrop, hcount, if_neg (by omega)]
  have hdataEnd : D.length + 2 * os.length + 2 - 2 - os.length * 2 = D.length := by omega
  rw [hdataEnd, htake, hdrop2, htake2, parseU16s_flatMap_enc16 os hoff]

/-- Witness for C5 at a concrete block. -/
theorem block_roundtrip_witness :
    ([0, 2] : List Nat) ≠ [] ∧
      blockDecode (blockEncode ⟨[9, 8, 7, 6], [0, 2]⟩) = some ⟨[9, 8, 7, 6], [0, 2]⟩ :=
  ⟨by decide, block_roundtrip ⟨[9, 8, 7, 6], [0, 2]⟩ (by decide) (by decide) (by decide)⟩

/-! ## C7: block decode failure modes -/

/-- C7: `Block::decode` fails — it does not produce a block (the Rust code
panics, which the model reports as `none`) — on any input shorter than two
bytes, and on any input whose trailing declared entry count requires an
offset array larger than the remaining buffer. -/
theorem block_decode_fails (bytes : ByteStr)
    (h : bytes.length < 2 ∨
      bytes.length < 2 * readU16 (bytes.drop (bytes.length - 2)) + 2) :
    blockDecode bytes = none := by
  unfold blockDecode
  rcases h with h | h
  · rw [if_pos h]
  · by_cases h2 : bytes.length < 2
    · rw [if_pos h2]
    · rw [if_neg h2, if_pos h]

/-- Witness for C7: the empty input and an input whose declared count (9)
overflows its four bytes. -/
theorem block_decode_fails_witness :
    (([] : ByteStr).length < 2 ∨
        ([] : ByteStr).length < 2 * readU16 (([] : ByteStr).drop (([] : ByteStr).length - 2)) + 2) ∧
      blockDecode [] = none ∧ blockDecode [0, 0, 0, 9] = none :=
  ⟨Or.inl (by decide), block_decode_fails [] (Or.inl (by decide)),
    block_decode_fails [0, 0, 0, 9] (Or.inr (by decide))⟩

/-! ## Byte-string order lemmas -/

theorem bsCmp_cons (a b : Nat) (as bs : ByteStr) :
    bsCmp (a :: as) (b :: bs) =
      if a < b then .lt else if b < a then .gt else bsCmp as bs := rfl

theorem bsCmp_self (a : ByteStr) : bsCmp a a = .eq := by
  induction a with
  | nil => rfl
  | cons x xs ih => simp [bsCmp_cons, ih]

theorem bsCmp_eq_iff : ∀ a b : ByteStr, bsCmp a b = .eq ↔ a = b := by
  intro a
  induction a with
  | nil => intro b; cases b <;> simp [bsCmp]
  | cons x xs ih =>
    intro b
    cases b with
    | nil => simp [bsCmp]
    | cons y ys =>
      rw [bsCmp_cons]
      by_cases h1 : x < y
      · simp [h1]
        omega
      · by_cases h2 : y < x
        · simp [h1, h2]
          omega
        · have : x = y := by omega
          subst this
          simp [h1, h2, ih ys]

theorem bsCmp_swap : ∀ a b : ByteStr, bsCmp b a = (bsCmp a b).swap := by
  intro a
  induction a with
  | nil => intro b; cases b <;> rfl
  | cons x xs ih =>
    intro b
    cases b with
    | nil => rfl
    | cons y ys =>
      rw [bsCmp_cons, bsCmp_cons]
      by_cases h1 : x < y
      · have h2 : ¬ y < x := by omega
        simp [h1, h2, Ordering.swap]
      · by_cases h2 : y < x
        · simp [h1, h2, Ordering.swap]
        · simp [h1, h2, ih ys]

theorem bsCmp_cons_lt_iff (a b : Nat) (as bs : ByteStr) :
    bsCmp (a :: as) (b :: bs) = .lt ↔ a < b ∨ (a = b ∧ bsCmp as bs = .lt) := by
  rw [bsCmp_cons]
  by_cases h1 : a < b
  · simp [h1]
  · by_cases h2 : b < a
    · simp [h1, h2]
      omega
    · have : a = b := by omega
      simp [h1, h2, this]

theorem bsLt_trans : ∀ a b c : ByteStr, bsLt a b → bsLt b c → bsLt a c := by
  unfold bsLt
  intro a
  induction a with
  | nil =>
    intro b c hab hbc
    cases b with
    | nil => exact absurd hab (by simp [bsCmp])
    | cons y ys =>
      cases c with
      | nil => exact absurd hbc (by simp [bsCmp])
      | cons z zs => rfl
  | cons x xs ih =>
    intro b c hab hbc
    cases b with
    | nil => exact absurd hab (by simp [bsCmp])
    | cons y ys =>
      cases c with
      | nil => exact absurd hbc (by simp [bsCmp])
      | cons z zs =>
        rw [bsCmp_cons_lt_iff] at hab hbc ⊢
        rcases hab with h | ⟨he, h⟩ <;> rcases hbc with h' | ⟨he', h'⟩
        · exact Or.inl (by omega)
        · exact Or.inl (by omega)
        · exact Or.inl (by omega)
        · exact Or.inr ⟨by omega, ih ys zs h h'⟩

theorem bsLt_irrefl (a : ByteStr) : ¬ bsLt a a := by
  unfold bsLt
  rw [bsCmp_self]
  simp

theorem bsLe_iff (a b : ByteStr) : bsLe a b ↔ bsLt a b ∨ a = b := by
  unfold bsLe bsLt
  constructor
  · intro h
    rcases hc : bsCmp a b with _ | _ | _
    · exact Or.inl rfl
    · exact Or.inr ((bsCmp_eq_iff a b).1 hc)
    · exact absurd hc h
  · intro h hg
    rcases h with h | rfl
    · rw [h] at hg
      exact absurd hg (by simp)
    · rw [bsCmp_self] at hg
      exact absurd hg (by simp)

theorem not_bsLe_iff (a b : ByteStr) : ¬ bsLe a b ↔ bsLt b a := by
  unfold bsLe bsLt
  rw [bsCmp_swap a b]
  rcases h : bsCmp a b with _ | _ | _ <;> simp [Ordering.swap]

theorem bsLe_refl (a : ByteStr) : bsLe a a := by
  rw [bsLe_iff]
  exact Or.inr rfl

theorem bsLt_of_le_of_lt {a b c : ByteStr} (h1 : bsLe a b) (h2 : bsLt b c) : bsLt a c := by
  rcases (bsLe_iff a b).1 h1 with h | rfl
  · exact bsLt_trans a b c h h2
  · exact h2

theorem bsLt_of_lt_of_le {a b c : ByteStr} (h1 : bsLt a b) (h2 : bsLe b c) : bsLt a c := by
  rcases (bsLe_iff b c).1 h2 with h | rfl
  · exact bsLt_trans a b c h1 h
  · exact h1

theorem bsLe_trans {a b c : ByteStr} (h1 : bsLe a b) (h2 : bsLe b c) : bsLe a c := by
  rcases (bsLe_iff a b).1 h1 with h | rfl
  · exact (bsLe_iff a c).2 (Or.inl (bsLt_of_lt_of_le h h2))
  · exact h2

theorem bsLe_of_lt {a b : ByteStr} (h : bsLt a b) : bsLe a b :=
  (bsLe_iff a b).2 (Or.inl h)

theorem bsLe_total (a b : ByteStr) : bsLe a b ∨ bsLe b a := by
  by_cases h : bsLe a b
  · exact Or.inl h
  · exact Or.inr (bsLe_of_lt ((not_bsLe_iff a b).1 h))

theorem bsLt_asymm {a b : ByteStr} (h : bsLt a b) : ¬ bsLt b a := by
  intro h'
  exact bsLt_irrefl a (bsLt_trans a b a h h')

/-! ## takeWhile positional lemmas (the behaviour of `partition_point` on a
partitioned slice) -/

theorem takeWhile_getD_true {α : Type} (p : α → Bool) (d : α) :
    ∀ (l : List α) (i : Nat), i < (l.takeWhile p).length → p (l.getD i d) = true := by
  intro l
  induction l with
  | nil => intro i h; simp [List.takeWhile] at h
  | cons a t ih =>
    intro i h
    by_cases hp : p a
    · rw [List.takeWhile_cons_of_pos hp] at h
      cases i with
      | zero => simpa using hp
      | succ i =>
        rw [List.getD_cons_succ]
        exact ih i (by simpa using h)
    · rw [List.takeWhile_cons_of_neg (by simpa using hp)] at h
      simp at h

theorem takeWhile_getD_false {α : Type} (p : α → Bool) (d : α) :
    ∀ l : List α, (l.takeWhile p).length < l.length →
      p (l.getD (l.takeWhile p).length d) = false := by
  intro l
  induction l with
  | nil => intro h; simp at h
  | cons a t ih =>
    intro h
    by_cases hp : p a
    · rw [List.takeWhile_cons_of_pos hp] at h ⊢
      simp only [List.length_cons, List.getD_cons_succ]
      exact ih (by simpa using h)
    · rw [List.takeWhile_cons_of_neg (by simpa using hp)]
      simpa using hp

/-! ## C3: `find_block_idx` (corrected) -/

/-- C3 counterexample to the claim as stated: with a single block whose
first key is `[1]` and the query key `[0]` (which precedes all blocks),
`find_block_idx` returns 0 — as the spec requires — but
`meta[0].first_key ≤ K` is false, refuting the claim's unconditional first
conjunct (the metadata invariants hold trivially here). -/
theorem find_block_idx_claim_counterexample :
    List.Chain' (fun a b : BlockMeta => a.offset < b.offset) [⟨0, [1], [1]⟩] ∧
      (∀ m ∈ ([⟨0, [1], [1]⟩] : List BlockMeta), bsLe m.first_key m.last_key) ∧
      List.Chain' (fun a b : BlockMeta => bsLt a.last_key b.first_key) [⟨0, [1], [1]⟩] ∧
      findBlockIdx [⟨0, [1], [1]⟩] [0] = 0 ∧
      ¬ bsLe (([⟨0, [1], [1]⟩] : List BlockMeta).getD
          (findBlockIdx [⟨0, [1], [1]⟩] [0]) ⟨0, [], []⟩).first_key [0] := by
  exact ⟨List.chain'_singleton _, by decide, List.chain'_singleton _, by decide, by decide⟩

/-- C3 (amended): for metadata satisfying the §3 ordering invariants and
any key `K`, with `i = find_block_idx K`: whenever `K` does not precede
all blocks, `meta[i].first_key ≤ K`; in every case either `i` is the last
index or `meta[i+1].first_key > K`; and `i = 0` whenever `K` precedes all
blocks (there `meta[i].first_key ≤ K` fails). -/
theorem find_block_idx_correct (metas : List BlockMeta) (K : ByteStr)
    (hne : metas ≠ [])
    (hoffs : List.Chain' (fun a b => a.offset < b.offset) metas)
    (hfl : ∀ m ∈ metas, bsLe m.first_key m.last_key)
    (hdisj : List.Chain' (fun a b => bsLt a.last_key b.first_key) metas) :
    (bsLe (metas.getD 0 ⟨0, [], []⟩).first_key K →
      bsLe (metas.getD (findBlockIdx metas K) ⟨0, [], []⟩).first_key K) ∧
    (findBlockIdx metas K + 1 = metas.length ∨
      bsLt K (metas.getD (findBlockIdx metas K + 1) ⟨0, [], []⟩).first_key) ∧
    (bsLt K (metas.getD 0 ⟨0, [], []⟩).first_key → findBlockIdx metas K = 0) := by
  have hlen : 0 < metas.length := List.length_pos.2 hne
  set p : BlockMeta → Bool := fun m => decide (bsLe m.first_key K) with hp
  set pp := (metas.takeWhile p).length with hpp
  have hple : pp ≤ metas.length := (List.takeWhile_sublist p).length_le
  have hidx : findBlockIdx metas K = pp - 1 := rfl
  refine ⟨?_, ?_, ?_⟩
  · intro h0
    rcases Nat.eq_zero_or_pos pp with h | h
    · exfalso
      have := takeWhile_getD_false p (⟨0, [], []⟩ : BlockMeta) metas (by omega)
      rw [← hpp, h] at this
      rw [hp] at this
      simp only [decide_eq_false_iff_not] at this
      exact this h0
    · have := takeWhile_getD_true p (⟨0, [], []⟩ : BlockMeta) metas (pp - 1) (by omega)
      rw [hp] at this
      simp only [decide_eq_true_eq] at this
      rw [hidx]
      exact this
  · rcases Nat.lt_or_ge pp metas.length with h | h
    · rcases Nat.eq_zero_or_pos pp with h0 | h0
      · -- K precedes all blocks; i = 0
        have hKlt : bsLt K (metas.getD 0 ⟨0, [], []⟩).first_key := by
          have := takeWhile_getD_false p (⟨0, [], []⟩ : BlockMeta) metas (by omega)
          rw [← hpp, h0, hp] at this
          simp only [decide_eq_false_iff_not] at this
          exact (not_bsLe_iff _ _).1 this
        rcases Nat.lt_or_ge 1 metas.length with h1 | h1
        · refine Or.inr ?_
          rw [hidx, h0]
          -- K < first[0] ≤ last[0] < first[1]
          have hm0 : metas.getD 0 ⟨0, [], []⟩ ∈ metas := by
            rw [List.getD_eq_getElem _ _ (by omega)]
            exact List.getElem_mem _
          have hfl0 : bsLe (metas.getD 0 ⟨0, [], []⟩).first_key
              (metas.getD 0 ⟨0, [], []⟩).last_key := hfl _ hm0
          have hch : bsLt (metas.getD 0 ⟨0, [], []⟩).last_key
              (metas.getD 1 ⟨0, [], []⟩).first_key := by
            have := List.chain'_iff_get.1 hdisj 0 (by omega)
            rw [List.getD_eq_getElem _ _ (by omega), List.getD_eq_getElem _ _ (by omega)]
            simpa [List.get_eq_getElem] using this
          exact bsLt_trans _ _ _ (bsLt_of_lt_of_le hKlt hfl0) hch
        · exact Or.inl (by rw [hidx, h0]; omega)
      · refine Or.inr ?_
        rw [hidx]
        have heq : pp - 1 + 1 = pp := by omega
        rw [heq]
        have := takeWhile_getD_false p (⟨0, [], []⟩ : BlockMeta) metas (by omega)
        rw [← hpp, hp] at this
        simp only [decide_eq_false_iff_not] at this
        exact (not_bsLe_iff _ _).1 this
    · exact Or.inl (by rw [hidx]; omega)
  · intro hK
    have hnle : ¬ bsLe (metas.getD 0 ⟨0, [], []⟩).first_key K := (not_bsLe_iff _ _).2 hK
    rcases Nat.eq_zero_or_pos pp with h0 | h0
    · rw [hidx, h0]
    · exfalso
      have := takeWhile_getD_true p (⟨0, [], []⟩ : BlockMeta) metas 0 (by omega)
      rw [hp] at this
      simp only [decide_eq_true_eq] at this
      exact hnle this

/-- Witness for C3 at the S2/S3 metadata and key "b". -/
theorem find_block_idx_correct_witness :
    (bsLe (([⟨0, [97], [98]⟩, ⟨29, [99], [100]⟩] : List BlockMeta).getD 0
        ⟨0, [], []⟩).first_key [98] →
      bsLe (([⟨0, [97], [98]⟩, ⟨29, [99], [100]⟩] : List BlockMeta).getD
        (findBlockIdx [⟨0, [97], [98]⟩, ⟨29, [99], [100]⟩] [98]) ⟨0, [], []⟩).first_key [98]) ∧
    (findBlockIdx [⟨0, [97], [98]⟩, ⟨29, [99], [100]⟩] [98] + 1 =
        ([⟨0, [97], [98]⟩, ⟨29, [99], [100]⟩] : List BlockMeta).length ∨
      bsLt [98] (([⟨0, [97], [98]⟩, ⟨29, [99], [100]⟩] : List BlockMeta).getD
        (findBlockIdx [⟨0, [97], [98]⟩, ⟨29, [99], [100]⟩] [98] + 1) ⟨0, [], []⟩).first_key) ∧
    (bsLt [98] (([⟨0, [97], [98]⟩, ⟨29, [99], [100]⟩] : List BlockMeta).getD 0
        ⟨0, [], []⟩).first_key →
      findBlockIdx [⟨0, [97], [98]⟩, ⟨29, [99], [100]⟩] [98] = 0) :=
  find_block_idx_correct [⟨0, [97], [98]⟩, ⟨29, [99], [100]⟩] [98]
    (by decide)
    (List.chain'_cons.2 ⟨by decide, List.chain'_singleton _⟩)
    (by decide)
    (List.chain'_cons.2 ⟨by decide, List.chain'_singleton _⟩)

/-! ## C9: Bloom hash-function count (corrected: truncation, not rounding) -/

/-- C9 counterexample to the claim as stated: at `bits_per_key = 10` the
code computes `k = (10 × 0.69) as u32 = 6` (truncation), while
`clamp(round(10 × 0.69), 1, 30) = 7`. -/
theorem bloom_k_claim_counterexample :
    (bloomBuild [] 10).k = 6 ∧
      max 1 (min 30 (round ((10 : ℚ) * (69 / 100)))) = 7 := by
  constructor
  · decide
  · norm_num [round_eq]

/-- C9 (amended): the number of hash functions equals
`clamp(⌊bits_per_key × 0.69⌋, 1, 30)` — the float product is truncated
toward zero, not rounded to nearest. -/
theorem bloom_k_truncates (keys : List Nat) (bitsPerKey : Nat) :
    (bloomBuild keys bitsPerKey).k =
      max 1 (min 30 (Nat.floor ((bitsPerKey : ℚ) * (69 / 100)))) := by
  show bloomK bitsPerKey = _
  have hcast : ((bitsPerKey : ℚ) * (69 / 100)) = ((bitsPerKey * 69 : ℕ) : ℚ) / ((100 : ℕ) : ℚ) := by
    push_cast
    ring
  rw [hcast, Nat.floor_div_nat, Nat.floor_natCast]
  unfold bloomK
  rw [Nat.min_comm, Nat.max_comm]

/-! ## C6: SST iterator seek -/

/-- C6: `create_and_seek_to_key` positions exactly as described — block
index from `find_block_idx`, seek within that block, and on an invalid
inner iterator advance to the first entry of the next block when still in
range — and on the two-block S2 table, seeking to key "b@" lands on block
1 at entry ("c", "3"). -/
theorem sst_seek_to_key_correct :
    (∀ (t : SstView) (K : ByteStr), seekToKeyInner t K = seekToKeyDescr t K) ∧
      seekToKeyInner
        ⟨[⟨0, [97], [98]⟩, ⟨29, [99], [100]⟩],
         [[([97], [49]), ([98], [50])], [([99], [51]), ([100], [52])]]⟩
        [98, 64] =
        (1, blockSeekToFirst [([99], [51]), ([100], [52])]) ∧
      blockIterEntry
        (seekToKeyInner
          ⟨[⟨0, [97], [98]⟩, ⟨29, [99], [100]⟩],
           [[([97], [49]), ([98], [50])], [([99], [51]), ([100], [52])]]⟩
          [98, 64]).2 = ([99], [51]) :=
  ⟨fun _ _ => rfl, by decide, by decide⟩

/-! ## C10: `SsTable::open` panics on empty metadata; `Ok` implies a
nonempty table -/

/-- C10: if the decoded block-metadata section of a file is empty,
`SsTable::open` panics (the `first()/last().unwrap()` calls), and
consequently whenever `open` returns `Ok` the table has at least one
metadata entry and its cached `first_key`/`last_key` are those of the
first and last entries. -/
theorem sst_open_nonempty_meta :
    (∀ (file : ByteStr) (bl : Bloom) (mo : Nat),
      openStage file = .ok (bl, mo, []) → sstOpen file = .panik) ∧
    (∀ (file : ByteStr) (t : SsTable), sstOpen file = .ok t →
      t.block_meta ≠ [] ∧
        t.first_key = (t.block_meta.headD ⟨0, [], []⟩).first_key ∧
        t.last_key = (t.block_meta.getLastD ⟨0, [], []⟩).last_key) := by
  constructor
  · intro file bl mo h
    unfold sstOpen
    rw [h]
  · intro file t h
    unfold sstOpen at h
    rcases hs : openStage file with ⟨bl, mo, metas⟩ | _ | _
    · rw [hs] at h
      cases metas with
      | nil => exact absurd h (by simp)
      | cons m0 rest =>
        simp only at h
        cases h.symm.trans rfl
        injection h with h'
        rw [← h']
        refine ⟨by simp, rfl, ?_⟩
        simp [List.getLastD]
    · rw [hs] at h
      exact absurd h (by simp)
    · rw [hs] at h
      exact absurd h (by simp)

set_option maxRecDepth 40000 in
/-- Witness for C10: a concrete file whose meta section decodes to zero
entries makes `open` panic, and a concrete one-block file opens `Ok` with
nonempty metadata. -/
theorem sst_open_nonempty_meta_witness :
    openStage (encodeBlockMeta [] ++ enc32 0 ++ ([1] ++ enc32 (crc32 [1])) ++ enc32 12) =
        .ok (⟨[], 1⟩, 0, []) ∧
      sstOpen (encodeBlockMeta [] ++ enc32 0 ++ ([1] ++ enc32 (crc32 [1])) ++ enc32 12) =
        .panik ∧
      sstOpen (encodeBlockMeta [⟨0, [97], [98]⟩] ++ enc32 0 ++ ([1] ++ enc32 (crc32 [1])) ++
          enc32 22) =
        .ok ⟨[⟨0, [97], [98]⟩], 0, [97], [98], some ⟨[], 1⟩⟩ ∧
      ([⟨0, [97], [98]⟩] : List BlockMeta) ≠ [] :=
  ⟨by decide,
   sst_open_nonempty_meta.1
     (encodeBlockMeta [] ++ enc32 0 ++ ([1] ++ enc32 (crc32 [1])) ++ enc32 12) ⟨[], 1⟩ 0
     (by decide),
   by decide,
   (sst_open_nonempty_meta.2
     (encodeBlockMeta [⟨0, [97], [98]⟩] ++ enc32 0 ++ ([1] ++ enc32 (crc32 [1])) ++ enc32 22)
     ⟨[⟨0, [97], [98]⟩], 0, [97], [98], some ⟨[], 1⟩⟩ (by decide)).1⟩

/-! ## C4: Bloom no-false-negative (corrected: requires the filter's bit
length to fit in `u32`) -/

theorem getBit_eq_testBit (l : ByteStr) (i : Nat) :
    getBit l i = (l.getD (i / 8) 0).testBit (i % 8) := by
  unfold getBit
  generalize l.getD (i / 8) 0 = b
  rcases h : b.testBit (i % 8) <;> simp [Nat.and_two_pow, h]

theorem length_setBit (l : ByteStr) (i : Nat) : (setBit l i).length = l.length :=
  List.length_set l _ _

theorem getD_setBit_same (l : ByteStr) (i : Nat) (h : i / 8 < l.length) :
    (setBit l i).getD (i / 8) 0 = l.getD (i / 8) 0 ||| 2 ^ (i % 8) := by
  unfold setBit
  simp [List.getD_eq_getElem?_getD, List.getElem?_set_self, h]

theorem getBit_setBit_same (l : ByteStr) (i : Nat) (h : i / 8 < l.length) :
    getBit (setBit l i) i = true := by
  rw [getBit_eq_testBit, getD_setBit_same l i h, Nat.testBit_or, Nat.testBit_two_pow_self]
  simp

theorem getBit_setBit_mono (l : ByteStr) (i j : Nat) (h : getBit l i = true) :
    getBit (setBit l j) i = true := by
  rw [getBit_eq_testBit] at h ⊢
  by_cases hb : j / 8 < l.length
  · by_cases hij : i / 8 = j / 8
    · rw [hij, getD_setBit_same l j hb, Nat.testBit_or]
      rw [hij] at h
      simp only [h, Bool.true_or]
    · have : (setBit l j).getD (i / 8) 0 = l.getD (i / 8) 0 := by
        unfold setBit
        simp [List.getD_eq_getElem?_getD, List.getElem?_set_ne (fun he => hij he.symm)]
      rw [this]
      exact h
  · have : setBit l j = l := by
      unfold setBit
      exact List.set_eq_of_length_le (by omega)
    rw [this]
    exact h

theorem bitsSubset_refl (f : ByteStr) : bitsSubset f f := fun _ h => h

theorem bitsSubset_trans {f g h : ByteStr} (h1 : bitsSubset f g) (h2 : bitsSubset g h) :
    bitsSubset f h := fun i hi => h2 i (h1 i hi)

theorem bitsSubset_setBit (l : ByteStr) (j : Nat) : bitsSubset l (setBit l j) :=
  fun i hi => getBit_setBit_mono l i j hi

theorem length_bloomSetLoop (nbits delta : Nat) (k : Nat) :
    ∀ (h : Nat) (f : ByteStr), (bloomSetLoop nbits delta k h f).length = f.length := by
  induction k with
  | zero => intro h f; rfl
  | succ k ih =>
    intro h f
    rw [bloomSetLoop, ih, length_setBit]

theorem length_bloomSetKey (k nbits h : Nat) (f : ByteStr) :
    (bloomSetKey k nbits h f).length = f.length :=
  length_bloomSetLoop nbits (bloomDelta h) k h f

theorem bitsSubset_bloomSetLoop (nbits delta : Nat) (k : Nat) :
    ∀ (h : Nat) (f : ByteStr), bitsSubset f (bloomSetLoop nbits delta k h f) := by
  induction k with
  | zero => intro h f; exact bitsSubset_refl f
  | succ k ih =>
    intro h f
    rw [bloomSetLoop]
    exact bitsSubset_trans (bitsSubset_setBit f (h % nbits)) (ih _ _)

theorem bitsSubset_bloomSetKey (k nbits h : Nat) (f : ByteStr) :
    bitsSubset f (bloomSetKey k nbits h f) :=
  bitsSubset_bloomSetLoop nbits (bloomDelta h) k h f

theorem length_bloomFold (k nbits : Nat) (keys : List Nat) (f : ByteStr) :
    (keys.foldl (fun f h => bloomSetKey k nbits h f) f).length = f.length := by
  induction keys generalizing f with
  | nil => rfl
  | cons x xs ih => rw [List.foldl_cons, ih, length_bloomSetKey]

theorem bitsSubset_bloomFold (k nbits : Nat) (keys : List Nat) (f : ByteStr) :
    bitsSubset f (keys.foldl (fun f h => bloomSetKey k nbits h f) f) := by
  induction keys generalizing f with
  | nil => exact bitsSubset_refl f
  | cons x xs ih =>
    rw [List.foldl_cons]
    exact bitsSubset_trans (bitsSubset_bloomSetKey k nbits x f) (ih _)

/-- If every bit the build loop sets from `(h, k)` (with the fixed `delta`)
is set in `g` and the modulus matches the filter's bit length, the probe
loop of `may_contain` (with the same `delta`) accepts `h`. -/
theorem bloomCheckLoop_of_bitsSubset (nbits delta : Nat) (k : Nat) :
    ∀ (h : Nat) (f g : ByteStr), nbits = 8 * f.length → 0 < f.length →
      bitsSubset (bloomSetLoop nbits delta k h f) g →
      bloomCheckLoop nbits delta k h g = true := by
  induction k with
  | zero => intro h f g _ _ _; rfl
  | succ k ih =>
    intro h f g hn hpos hsub
    rw [bloomSetLoop] at hsub
    have hmod : h % nbits / 8 < f.length := by
      have h1 : h % nbits < nbits := Nat.mod_lt h (by omega)
      omega
    have hbit : getBit g (h % nbits) = true := by
      refine hsub (h % nbits) ?_
      refine bitsSubset_bloomSetLoop nbits delta k _ _ (h % nbits) ?_
      exact getBit_setBit_same f (h % nbits) hmod
    rw [bloomCheckLoop, hbit]
    simp only [if_true]
    refine ih ((h + delta) % 2 ^ 32) (setBit f (h % nbits)) g ?_ ?_ hsub
    · rw [length_setBit]
      exact hn
    · rw [length_setBit]
      exact hpos

/-- Specialised to `bloomSetKey`/`bloomCheckKey`: both fix `delta` from
the same initial hash `h`, so the build and query probe sequences agree. -/
theorem bloomCheckKey_of_bitsSubset (k : Nat) :
    ∀ (nbits h : Nat) (f g : ByteStr), nbits = 8 * f.length → 0 < f.length →
      bitsSubset (bloomSetKey k nbits h f) g → bloomCheckKey k nbits h g = true := by
  intro nbits h f g hn hpos hsub
  exact bloomCheckLoop_of_bitsSubset nbits (bloomDelta h) k h f g hn hpos hsub

theorem bloomBuild_k (keys : List Nat) (bpk : Nat) :
    (bloomBuild keys bpk).k = bloomK bpk := rfl

theorem bloomBuild_filter (keys : List Nat) (bpk : Nat) :
    (bloomBuild keys bpk).filter =
      keys.foldl
        (fun f h => bloomSetKey (bloomK bpk) (((keys.length * bpk).max 64 + 7) / 8 * 8) h f)
        (List.replicate (((keys.length * bpk).max 64 + 7) / 8) 0) := rfl

theorem bloomBuild_filter_length (keys : List Nat) (bpk : Nat) :
    (bloomBuild keys bpk).filter.length = ((keys.length * bpk).max 64 + 7) / 8 := by
  rw [bloomBuild_filter, length_bloomFold]
  exact List.length_replicate _ _

/-- C4 counterexample to the claim as stated: with one inserted hash and
`bits_per_key = 2 ^ 33` the filter holds `2 ^ 33` bits, the
`bit_len() as u32` cast in `may_contain` truncates that to zero, and the
query panics (`h % 0`) instead of returning true. -/
theorem bloom_no_false_negative_claim_counterexample :
    1 ≤ 2 ^ 33 ∧ (0 : Nat) ∈ [(0 : Nat)] ∧
      bloomMayContain (bloomBuild [0] (2 ^ 33)) 0 = none := by
  refine ⟨by norm_num, by simp, ?_⟩
  have hlen : (bloomBuild [0] (2 ^ 33)).filter.length = 2 ^ 30 := by
    rw [bloomBuild_filter_length]
    norm_num
  have hk : (bloomBuild [0] (2 ^ 33)).k = 30 := by
    rw [bloomBuild_k]
    decide
  simp only [bloomMayContain, hk, hlen]
  norm_num

/-- C4 (amended): no false negatives for every inserted 32-bit hash,
provided the filter's padded bit count fits in `u32` (filters of `2 ^ 29`
bytes or more break the build/query correspondence through the
`bit_len() as u32` cast in `may_contain`). -/
theorem bloom_no_false_negative (keys : List Nat) (bitsPerKey : Nat)
    (hbpk : 1 ≤ bitsPerKey) (h : Nat) (hmem : h ∈ keys)
    (hsize : (keys.length * bitsPerKey).max 64 + 7 < 2 ^ 32) :
    bloomMayContain (bloomBuild keys bitsPerKey) h = some true := by
  have hk30 : bloomK bitsPerKey ≤ 30 := max_le (min_le_right _ _) (by norm_num)
  have h64 : 64 ≤ (keys.length * bitsPerKey).max 64 := le_max_right _ _
  set nbytes := ((keys.length * bitsPerKey).max 64 + 7) / 8 with hnbytes
  have hbytespos : 0 < nbytes := by omega
  have hfit : 8 * nbytes < 2 ^ 32 := by omega
  have hlen : (bloomBuild keys bitsPerKey).filter.length = nbytes :=
    bloomBuild_filter_length keys bitsPerKey
  simp only [bloomMayContain, bloomBuild_k, hlen]
  rw [if_neg (by omega), Nat.mod_eq_of_lt hfit, if_neg (by omega)]
  congr 1
  rw [bloomBuild_filter, Nat.mul_comm 8 nbytes]
  rw [← hnbytes]
  obtain ⟨l1, l2, hsplit⟩ := List.append_of_mem hmem
  rw [hsplit, List.foldl_append, List.foldl_cons]
  set mid := l1.foldl
    (fun f x => bloomSetKey (bloomK bitsPerKey) (nbytes * 8) x f)
    (List.replicate nbytes 0) with hmid
  have hmidlen : mid.length = nbytes := by
    rw [hmid, length_bloomFold]
    exact List.length_replicate _ _
  refine bloomCheckKey_of_bitsSubset (bloomK bitsPerKey) (nbytes * 8) h mid _ ?_ ?_ ?_
  · rw [hmidlen, Nat.mul_comm]
  · omega
  · exact bitsSubset_bloomFold _ _ _ _

/-- Witness for C4 at a small concrete filter. -/
theorem bloom_no_false_negative_witness :
    1 ≤ 10 ∧ (77 : Nat) ∈ [5, 77, 123456] ∧
      (([5, 77, 123456] : List Nat).length * 10).max 64 + 7 < 2 ^ 32 ∧
      bloomMayContain (bloomBuild [5, 77, 123456] 10) 77 = some true :=
  ⟨by norm_num, by simp, by norm_num,
    bloom_no_false_negative [5, 77, 123456] 10 (by norm_num) 77 (by simp) (by norm_num)⟩

/-! ## CRC32: range, injectivity in the state, and sensitivity to a
single corrupted byte -/

theorem crcStep_lt (c : Nat) (hc : c < 2 ^ 32) : crcStep c < 2 ^ 32 := by
  unfold crcStep
  split
  · exact Nat.xor_lt_two_pow (by omega) (by norm_num)
  · omega

theorem crcStep_inj (c c' : Nat) (hc : c < 2 ^ 32) (hc' : c' < 2 ^ 32)
    (h : crcStep c = crcStep c') : c = c' := by
  unfold crcStep at h
  have hP : (0xEDB88320 : Nat).testBit 31 = true := by decide
  by_cases p1 : c % 2 = 1 <;> by_cases p2 : c' % 2 = 1
  · rw [if_pos p1, if_pos p2] at h
    have h2 : c / 2 = c' / 2 := by
      have := congrArg (fun x => x ^^^ 0xEDB88320) h
      simpa [Nat.xor_cancel_right] using this
    omega
  · rw [if_pos p1, if_neg p2] at h
    exfalso
    have hL : (c / 2 ^^^ 0xEDB88320).testBit 31 = true := by
      rw [Nat.testBit_xor, Nat.testBit_lt_two_pow (show c / 2 < 2 ^ 31 by omega), hP]
      rfl
    rw [h] at hL
    rw [Nat.testBit_lt_two_pow (show c' / 2 < 2 ^ 31 by omega)] at hL
    exact absurd hL (by simp)
  · rw [if_neg p1, if_pos p2] at h
    exfalso
    have hL : (c' / 2 ^^^ 0xEDB88320).testBit 31 = true := by
      rw [Nat.testBit_xor, Nat.testBit_lt_two_pow (show c' / 2 < 2 ^ 31 by omega), hP]
      rfl
    rw [← h] at hL
    rw [Nat.testBit_lt_two_pow (show c / 2 < 2 ^ 31 by omega)] at hL
    exact absurd hL (by simp)
  · rw [if_neg p1, if_neg p2] at h
    omega

theorem crcIter_lt (n c : Nat) (hc : c < 2 ^ 32) : crcStep^[n] c < 2 ^ 32 := by
  induction n generalizing c with
  | zero => exact hc
  | succ n ih =>
    rw [Function.iterate_succ_apply]
    exact ih _ (crcStep_lt c hc)

theorem crcIter_inj (n c c' : Nat) (hc : c < 2 ^ 32) (hc' : c' < 2 ^ 32)
    (h : crcStep^[n] c = crcStep^[n] c') : c = c' := by
  induction n generalizing c c' with
  | zero => exact h
  | succ n ih =>
    rw [Function.iterate_succ_apply, Function.iterate_succ_apply] at h
    exact crcStep_inj c c' hc hc' (ih _ _ (crcStep_lt c hc) (crcStep_lt c' hc') h)

theorem crcByte_lt (c b : Nat) (hc : c < 2 ^ 32) (hb : b < 256) : crcByte c b < 2 ^ 32 :=
  crcIter_lt 8 _ (Nat.xor_lt_two_pow hc (by omega))

theorem crcByte_inj_state (b c c' : Nat) (hb : b < 256) (hc : c < 2 ^ 32) (hc' : c' < 2 ^ 32)
    (h : crcByte c b = crcByte c' b) : c = c' := by
  have := crcIter_inj 8 (c ^^^ b) (c' ^^^ b)
    (Nat.xor_lt_two_pow hc (by omega)) (Nat.xor_lt_two_pow hc' (by omega)) h
  have h2 := congrArg (fun x => x ^^^ b) this
  simpa [Nat.xor_cancel_right] using h2

theorem crcByte_inj_byte (c b b' : Nat) (hc : c < 2 ^ 32) (hb : b < 256) (hb' : b' < 256)
    (hne : b ≠ b') : crcByte c b ≠ crcByte c b' := by
  intro h
  have := crcIter_inj 8 (c ^^^ b) (c ^^^ b')
    (Nat.xor_lt_two_pow hc (by omega)) (Nat.xor_lt_two_pow hc (by omega)) h
  have h2 := congrArg (fun x => c ^^^ x) this
  simp only [Nat.xor_cancel_left] at h2
  exact hne h2

theorem foldl_crcByte_lt (l : ByteStr) (c : Nat) (hl : isBytes l) (hc : c < 2 ^ 32) :
    l.foldl crcByte c < 2 ^ 32 := by
  induction l generalizing c with
  | nil => exact hc
  | cons x xs ih =>
    rw [List.foldl_cons]
    exact ih _ (fun b hb => hl b (List.mem_cons_of_mem x hb))
      (crcByte_lt c x hc (hl x (List.mem_cons_self x xs)))

theorem foldl_crcByte_inj (l : ByteStr) (c c' : Nat) (hl : isBytes l)
    (hc : c < 2 ^ 32) (hc' : c' < 2 ^ 32)
    (h : l.foldl crcByte c = l.foldl crcByte c') : c = c' := by
  induction l generalizing c c' with
  | nil => exact h
  | cons x xs ih =>
    rw [List.foldl_cons, List.foldl_cons] at h
    have hx : x < 256 := hl x (List.mem_cons_self x xs)
    exact crcByte_inj_state x c c' hx hc hc'
      (ih _ _ (fun b hb => hl b (List.mem_cons_of_mem x hb))
        (crcByte_lt c x hc hx) (crcByte_lt c' x hc' hx) h)

theorem crc32_lt (l : ByteStr) (hl : isBytes l) : crc32 l < 2 ^ 32 := by
  unfold crc32
  exact Nat.xor_lt_two_pow (foldl_crcByte_lt l _ hl (by norm_num)) (by norm_num)

/-- Corrupting exactly one byte of a byte string changes its CRC32. -/
theorem crc32_set_ne (l : ByteStr) (p b' : Nat) (hl : isBytes l) (hp : p < l.length)
    (hb' : b' < 256) (hne : b' ≠ l.getD p 0) : crc32 (l.set p b') ≠ crc32 l := by
  intro h
  unfold crc32 at h
  have hstates : (l.set p b').foldl crcByte 0xFFFFFFFF = l.foldl crcByte 0xFFFFFFFF := by
    have := congrArg (fun x => x ^^^ 0xFFFFFFFF) h
    simpa [Nat.xor_cancel_right] using this
  have hset : l.set p b' = l.take p ++ b' :: l.drop (p + 1) := by
    rw [List.set_eq_take_append_cons_drop, if_pos hp]
  have hsplit : l.take p ++ l.getD p 0 :: l.drop (p + 1) = l := by
    rw [List.getD_eq_getElem l 0 hp]
    conv_rhs => rw [← List.take_append_drop p l]
    congr 1
    exact List.getElem_cons_drop l p hp
  have e1 : l.foldl crcByte 0xFFFFFFFF =
      (l.drop (p + 1)).foldl crcByte
        (crcByte ((l.take p).foldl crcByte 0xFFFFFFFF) (l.getD p 0)) := by
    conv_lhs => rw [← hsplit]
    rw [List.foldl_append, List.foldl_cons]
  have e2 : (l.set p b').foldl crcByte 0xFFFFFFFF =
      (l.drop (p + 1)).foldl crcByte
        (crcByte ((l.take p).foldl crcByte 0xFFFFFFFF) b') := by
    rw [hset, List.foldl_append, List.foldl_cons]
  rw [e1, e2] at hstates
  have htakeb : isBytes (l.take p) := fun b hb => hl b (List.mem_of_mem_take hb)
  have hdropb : isBytes (l.drop (p + 1)) := fun b hb => hl b (List.mem_of_mem_drop hb)
  have hc0 : (l.take p).foldl crcByte 0xFFFFFFFF < 2 ^ 32 :=
    foldl_crcByte_lt _ _ htakeb (by norm_num)
  have hdp : l.getD p 0 < 256 := by
    refine hl _ ?_
    rw [List.getD_eq_getElem l 0 hp]
    exact List.getElem_mem hp
  have := foldl_crcByte_inj (l.drop (p + 1)) _ _ hdropb
    (crcByte_lt _ _ hc0 hb') (crcByte_lt _ _ hc0 hdp) hstates
  exact crcByte_inj_byte _ b' (l.getD p 0) hc0 hb' hdp hne this

/-! ## Block-metadata codec: parsing its own encoding -/

theorem parseEntry_encEntry (m : BlockMeta) (t : ByteStr)
    (hoff : m.offset < 2 ^ 32) (hfl : m.first_key.length < 2 ^ 16)
    (hll : m.last_key.length < 2 ^ 16) :
    parseEntry (encEntry m ++ t) = some (m, t) := by
  obtain ⟨off, fk, lk⟩ := m
  simp only at hoff hfl hll
  have e : encEntry ⟨off, fk, lk⟩ ++ t =
      enc32 off ++ (enc16 fk.length ++ (fk ++ (enc16 lk.length ++ (lk ++ t)))) := by
    unfold encEntry
    simp [List.append_assoc]
  rw [e]
  unfold parseEntry
  have hlen4 : (enc32 off ++ (enc16 fk.length ++ (fk ++ (enc16 lk.length ++ (lk ++ t))))).length =
      4 + (2 + (fk.length + (2 + (lk.length + t.length)))) := by
    simp [enc32, enc16]
    omega
  rw [if_pos (by omega)]
  rw [readU32_enc32 off hoff]
  have hd4 : (enc32 off ++ (enc16 fk.length ++ (fk ++ (enc16 lk.length ++ (lk ++ t))))).drop 4 =
      enc16 fk.length ++ (fk ++ (enc16 lk.length ++ (lk ++ t))) := List.drop_left' rfl
  rw [hd4]
  have hlen2 : (enc16 fk.length ++ (fk ++ (enc16 lk.length ++ (lk ++ t)))).length =
      2 + (fk.length + (2 + (lk.length + t.length))) := by
    simp [enc16]
    omega
  rw [if_pos (by omega)]
  rw [readU16_enc16 fk.length hfl]
  have hd2 : (enc16 fk.length ++ (fk ++ (enc16 lk.length ++ (lk ++ t)))).drop 2 =
      fk ++ (enc16 lk.length ++ (lk ++ t)) := List.drop_left' rfl
  rw [hd2]
  have hlenf : (fk ++ (enc16 lk.length ++ (lk ++ t))).length =
      fk.length + (2 + (lk.length + t.length)) := by
    simp [enc16]
    omega
  rw [if_pos (by omega)]
  have htf : (fk ++ (enc16 lk.length ++ (lk ++ t))).take fk.length = fk := List.take_left' rfl
  have hdf : (fk ++ (enc16 lk.length ++ (lk ++ t))).drop fk.length =
      enc16 lk.length ++ (lk ++ t) := List.drop_left' rfl
  rw [htf, hdf]
  have hlen2' : (enc16 lk.length ++ (lk ++ t)).length = 2 + (lk.length + t.length) := by
    simp [enc16]
    omega
  rw [if_pos (by omega)]
  rw [readU16_enc16 lk.length hll]
  have hd2' : (enc16 lk.length ++ (lk ++ t)).drop 2 = lk ++ t := List.drop_left' rfl
  rw [hd2']
  have hlenl : (lk ++ t).length = lk.length + t.length := by simp
  rw [if_pos (by omega)]
  rw [List.take_left' rfl, List.drop_left' rfl]

theorem parseEntries_encEntries (ms : List BlockMeta) (t : ByteStr) (hwf : metaWf ms) :
    parseEntries ms.length (encEntries ms ++ t) = some (ms, t) := by
  induction ms generalizing t with
  | nil => rfl
  | cons m rest ih =>
    obtain ⟨h1, h2, h3, _, _⟩ := hwf m (List.mem_cons_self m rest)
    have e : encEntries (m :: rest) ++ t = encEntry m ++ (encEntries rest ++ t) := by
      unfold encEntries
      simp [List.flatMap_cons, List.append_assoc]
    rw [List.length_cons, e, parseEntries, parseEntry_encEntry m _ h1 h2 h3]
    dsimp only
    rw [ih t (fun x hx => hwf x (List.mem_cons_of_mem m hx))]

/-- `decode_block_meta` on a buffer of the encoded shape: `Ok` exactly
when the stored checksum matches the entry region's CRC32, a
checksum-mismatch `Err` otherwise. -/
theorem decodeBlockMeta_enc (ms : List BlockMeta) (c : Nat) (hwf : metaWf ms)
    (hn : ms.length < 2 ^ 32) (hc : c < 2 ^ 32) :
    decodeBlockMeta (enc32 ms.length ++ (encEntries ms ++ enc32 c)) =
      if c = crc32 (encEntries ms) then .ok ms else .err := by
  unfold decodeBlockMeta
  have hlen : (enc32 ms.length ++ (encEntries ms ++ enc32 c)).length =
      4 + ((encEntries ms).length + 4) := by
    simp [enc32]
    omega
  rw [if_neg (by omega)]
  rw [readU32_enc32 ms.length hn]
  have hd4 : (enc32 ms.length ++ (encEntries ms ++ enc32 c)).drop 4 =
      encEntries ms ++ enc32 c := List.drop_left' rfl
  rw [hd4]
  have hrlen : (encEntries ms ++ enc32 c).length = (encEntries ms).length + 4 := by
    simp [enc32]
  rw [if_neg (by omega)]
  have htake : (encEntries ms ++ enc32 c).take ((encEntries ms ++ enc32 c).length - 4) =
      encEntries ms := by
    rw [hrlen]
    exact List.take_left' (by omega)
  rw [htake]
  rw [parseEntries_encEntries ms (enc32 c) hwf]
  dsimp only
  have hclen : (enc32 c).length = 4 := rfl
  rw [hclen, if_neg (by omega)]
  rw [show readU32 (enc32 c) = c from by simpa using readU32_enc32 c hc []]
  by_cases hcc : c = crc32 (encEntries ms)
  · rw [if_neg (by omega), if_pos hcc]
  · rw [if_pos (by omega), if_neg hcc]

/-! ## Byte-level effect of a single-bit flip on big-endian fields -/

theorem div_mod_byte_xor (v m s : Nat) :
    (v ^^^ m) / 2 ^ s % 256 = (v / 2 ^ s % 256) ^^^ (m / 2 ^ s % 256) := by
  have h256 : (256 : ℕ) = 2 ^ 8 := by norm_num
  rw [h256]
  apply Nat.eq_of_testBit_eq
  intro i
  rw [Nat.testBit_mod_two_pow, Nat.testBit_xor, Nat.testBit_mod_two_pow, Nat.testBit_mod_two_pow,
    ← Nat.shiftRight_eq_div_pow, ← Nat.shiftRight_eq_div_pow, ← Nat.shiftRight_eq_div_pow,
    Nat.testBit_shiftRight, Nat.testBit_shiftRight, Nat.testBit_shiftRight, Nat.testBit_xor]
  by_cases h : i < 8 <;> simp [h]

theorem mod_byte_xor (v m : Nat) : (v ^^^ m) % 256 = v % 256 ^^^ m % 256 := by
  have := div_mod_byte_xor v m 0
  simpa using this

theorem pow_div_byte_zero_lt (mm s : Nat) (h : mm < s) : 2 ^ mm / 2 ^ s % 256 = 0 := by
  rw [Nat.div_eq_of_lt (Nat.pow_lt_pow_right (by norm_num) h)]

theorem pow_div_byte_zero_ge (mm s : Nat) (h : s + 8 ≤ mm) : 2 ^ mm / 2 ^ s % 256 = 0 := by
  rw [Nat.pow_div (by omega) (by norm_num)]
  have h8 : (8 : ℕ) ≤ mm - s := by omega
  have h256 : (256 : ℕ) = 2 ^ 8 := by norm_num
  rw [h256]
  exact Nat.dvd_iff_mod_eq_zero.mp (pow_dvd_pow 2 h8)

theorem pow_mod_byte_zero (mm : Nat) (h : 8 ≤ mm) : 2 ^ mm % 256 = 0 := by
  have := pow_div_byte_zero_ge mm 0 (by omega)
  simpa using this

theorem pow_div_byte_window (s j : Nat) (hj : j < 8) : 2 ^ (s + j) / 2 ^ s % 256 = 2 ^ j := by
  rw [Nat.pow_div (by omega) (by norm_num), Nat.add_sub_cancel_left]
  exact Nat.mod_eq_of_lt (by calc 2 ^ j < 2 ^ 8 := Nat.pow_lt_pow_right (by norm_num) hj
                                 _ = 256 := by norm_num)

theorem enc32_flip (v q j : Nat) (hq : q < 4) (hj : j < 8) :
    enc32 (v ^^^ 2 ^ (8 * (3 - q) + j)) = flipBit (enc32 v) q j := by
  unfold flipBit enc32
  interval_cases q
  · simp only [List.getD_cons_zero, List.set_cons_zero, List.cons.injEq]
    refine ⟨?_, ?_, ?_, ⟨?_, trivial⟩⟩
    · rw [show 8 * (3 - 0) + j = 24 + j by omega, div_mod_byte_xor, pow_div_byte_window 24 j hj]
    · rw [show 8 * (3 - 0) + j = 24 + j by omega, div_mod_byte_xor,
        pow_div_byte_zero_ge (24 + j) 16 (by omega)]
      simp
    · rw [show 8 * (3 - 0) + j = 24 + j by omega, div_mod_byte_xor,
        pow_div_byte_zero_ge (24 + j) 8 (by omega)]
      simp
    · rw [show 8 * (3 - 0) + j = 24 + j by omega, mod_byte_xor,
        pow_mod_byte_zero (24 + j) (by omega)]
      simp
  · simp only [List.getD_cons_succ, List.getD_cons_zero, List.set_cons_succ, List.set_cons_zero,
      List.cons.injEq]
    refine ⟨?_, ?_, ?_, ⟨?_, trivial⟩⟩
    · rw [show 8 * (3 - 1) + j = 16 + j by omega, div_mod_byte_xor,
        pow_div_byte_zero_lt (16 + j) 24 (by omega)]
      simp
    · rw [show 8 * (3 - 1) + j = 16 + j by omega, div_mod_byte_xor, pow_div_byte_window 16 j hj]
    · rw [show 8 * (3 - 1) + j = 16 + j by omega, div_mod_byte_xor,
        pow_div_byte_zero_ge (16 + j) 8 (by omega)]
      simp
    · rw [show 8 * (3 - 1) + j = 16 + j by omega, mod_byte_xor,
        pow_mod_byte_zero (16 + j) (by omega)]
      simp
  · simp only [List.getD_cons_succ, List.getD_cons_zero, List.set_cons_succ, List.set_cons_zero,
      List.cons.injEq]
    refine ⟨?_, ?_, ?_, ⟨?_, trivial⟩⟩
    · rw [show 8 * (3 - 2) + j = 8 + j by omega, div_mod_byte_xor,
        pow_div_byte_zero_lt (8 + j) 24 (by omega)]
      simp
    · rw [show 8 * (3 - 2) + j = 8 + j by omega, div_mod_byte_xor,
        pow_div_byte_zero_lt (8 + j) 16 (by omega)]
      simp
    · rw [show 8 * (3 - 2) + j = 8 + j by omega, div_mod_byte_xor, pow_div_byte_window 8 j hj]
    · rw [show 8 * (3 - 2) + j = 8 + j by omega, mod_byte_xor,
        pow_mod_byte_zero (8 + j) (by omega)]
      simp
  · simp only [List.getD_cons_succ, List.getD_cons_zero, List.set_cons_succ, List.set_cons_zero,
      List.cons.injEq]
    refine ⟨?_, ?_, ?_, ⟨?_, trivial⟩⟩
    · rw [show 8 * (3 - 3) + j = j by omega, div_mod_byte_xor,
        pow_div_byte_zero_lt j 24 (by omega)]
      simp
    · rw [show 8 * (3 - 3) + j = j by omega, div_mod_byte_xor,
        pow_div_byte_zero_lt j 16 (by omega)]
      simp
    · rw [show 8 * (3 - 3) + j = j by omega, div_mod_byte_xor,
        pow_div_byte_zero_lt j 8 (by omega)]
      simp
    · rw [show 8 * (3 - 3) + j = j by omega, mod_byte_xor,
        Nat.mod_eq_of_lt (show 2 ^ j < 256 by
          calc 2 ^ j < 2 ^ 8 := Nat.pow_lt_pow_right (by norm_num) hj
            _ = 256 := by norm_num)]

theorem flipBit_append_left (a b : ByteStr) (p j : Nat) (hp : p < a.length) :
    flipBit (a ++ b) p j = flipBit a p j ++ b := by
  unfold flipBit
  rw [List.getD_append a b 0 p hp, List.set_append_left p _ hp]

theorem flipBit_append_right (a b : ByteStr) (p j : Nat) :
    flipBit (a ++ b) (a.length + p) j = a ++ flipBit b p j := by
  unfold flipBit
  have h1 : (a ++ b).getD (a.length + p) 0 = b.getD p 0 := by
    rw [List.getD_append_right a b 0 _ (by omega)]
    congr 1
    omega
  rw [h1, List.set_append_right _ _ (by omega)]
  congr 2
  omega

/-! ## C8: meta round-trip and single-bit corruption (corrected) -/

theorem xor_two_pow_ne (b j : Nat) : b ^^^ 2 ^ j ≠ b := by
  intro h
  have h2 : b ^^^ 2 ^ j = b ^^^ 0 := by simpa using h
  have h3 := congrArg (fun x => b ^^^ x) h2
  simp only [Nat.xor_cancel_left] at h3
  exact absurd h3 (pow_ne_zero j (by norm_num))

theorem length_encEntry (m : BlockMeta) :
    (encEntry m).length = 8 + m.first_key.length + m.last_key.length := by
  simp [encEntry, enc32, enc16]
  omega

theorem entryContentLocal_lt (m : BlockMeta) :
    ∀ p ∈ entryContentLocal m, p < (encEntry m).length := by
  intro p hp
  rw [length_encEntry]
  unfold entryContentLocal at hp
  simp only [List.mem_append, List.mem_map, List.mem_range] at hp
  rcases hp with (hp | ⟨q, hq, rfl⟩) | ⟨q, hq, rfl⟩ <;> omega

theorem length_encEntries_cons (m : BlockMeta) (rest : List BlockMeta) :
    (encEntries (m :: rest)).length = (encEntry m).length + (encEntries rest).length := by
  unfold encEntries
  simp [List.flatMap_cons]

theorem encEntries_cons (m : BlockMeta) (rest : List BlockMeta) :
    encEntries (m :: rest) = encEntry m ++ encEntries rest := by
  unfold encEntries
  simp [List.flatMap_cons]

theorem entriesContentPos_lt (ms : List BlockMeta) :
    ∀ p ∈ entriesContentPos ms, p < (encEntries ms).length := by
  induction ms with
  | nil => intro p hp; simp [entriesContentPos] at hp
  | cons m rest ih =>
    intro p hp
    rw [length_encEntries_cons]
    unfold entriesContentPos at hp
    rcases List.mem_append.1 hp with hp | hp
    · have := entryContentLocal_lt m p hp
      omega
    · obtain ⟨q, hq, rfl⟩ := List.mem_map.1 hp
      have := ih q hq
      omega

theorem isBytes_append {a b : ByteStr} (ha : isBytes a) (hb : isBytes b) : isBytes (a ++ b) := by
  intro x hx
  rcases List.mem_append.1 hx with h | h
  · exact ha x h
  · exact hb x h

theorem isBytes_encEntry (m : BlockMeta) (h1 : isBytes m.first_key) (h2 : isBytes m.last_key) :
    isBytes (encEntry m) := by
  unfold encEntry
  exact isBytes_append (isBytes_append (isBytes_append
    (isBytes_append (isBytes_enc32 _) (isBytes_enc16 _)) h1) (isBytes_enc16 _)) h2

theorem isBytes_encEntries (ms : List BlockMeta) (hwf : metaWf ms) :
    isBytes (encEntries ms) := by
  induction ms with
  | nil => intro b hb; simp [encEntries] at hb
  | cons m rest ih =>
    obtain ⟨_, _, _, h4, h5⟩ := hwf m (List.mem_cons_self m rest)
    rw [encEntries_cons]
    exact isBytes_append (isBytes_encEntry m h4 h5)
      (ih fun x hx => hwf x (List.mem_cons_of_mem m hx))

theorem length_flipBit (l : ByteStr) (p j : Nat) : (flipBit l p j).length = l.length := by
  simp [flipBit]

/-- Flipping one content-position bit of the entry region yields the entry
region of an equally shaped, equally sized metadata list. -/
theorem entriesContent_flip (ms : List BlockMeta) (hwf : metaWf ms) (p j : Nat)
    (hp : p ∈ entriesContentPos ms) (hj : j < 8) :
    ∃ ms', ms'.length = ms.length ∧ metaWf ms' ∧
      encEntries ms' = flipBit (encEntries ms) p j := by
  induction ms generalizing p with
  | nil => simp [entriesContentPos] at hp
  | cons m rest ih =>
    obtain ⟨hw1, hw2, hw3, hw4, hw5⟩ := hwf m (List.mem_cons_self m rest)
    have hwrest : metaWf rest := fun x hx => hwf x (List.mem_cons_of_mem m hx)
    unfold entriesContentPos at hp
    rcases List.mem_append.1 hp with hp | hp
    · -- flip inside the first entry
      have hlt : p < (encEntry m).length := entryContentLocal_lt m p hp
      unfold entryContentLocal at hp
      simp only [List.mem_append, List.mem_map, List.mem_range] at hp
      obtain ⟨off, fk, lk⟩ := m
      simp only at hw1 hw2 hw3 hw4 hw5 hp hlt
      rcases hp with (hp | ⟨q, hq, rfl⟩) | ⟨q, hq, rfl⟩
      · -- offset field byte p < 4
        refine ⟨⟨off ^^^ 2 ^ (8 * (3 - p) + j), fk, lk⟩ :: rest, by simp, ?_, ?_⟩
        · intro x hx
          rcases List.mem_cons.1 hx with rfl | hx
          · exact ⟨Nat.xor_lt_two_pow hw1 (Nat.pow_lt_pow_right (by norm_num) (by omega)),
              hw2, hw3, hw4, hw5⟩
          · exact hwf x (List.mem_cons_of_mem _ hx)
        · rw [encEntries_cons, encEntries_cons, flipBit_append_left _ _ p j (by omega)]
          congr 1
          have hsplit : encEntry ⟨off, fk, lk⟩ =
              enc32 off ++ (enc16 fk.length ++ (fk ++ (enc16 lk.length ++ lk))) := by
            unfold encEntry
            simp [List.append_assoc]
          have hsplit2 : encEntry ⟨off ^^^ 2 ^ (8 * (3 - p) + j), fk, lk⟩ =
              enc32 (off ^^^ 2 ^ (8 * (3 - p) + j)) ++
                (enc16 fk.length ++ (fk ++ (enc16 lk.length ++ lk))) := by
            unfold encEntry
            simp [List.append_assoc]
          rw [hsplit, hsplit2, flipBit_append_left _ _ p j (by rw [length_enc32]; omega)]
          congr 1
          exact enc32_flip off p j (by omega) hj
      · -- first-key byte q
        have hfklen : (flipBit fk q j).length = fk.length := length_flipBit fk q j
        have hdm : fk.getD q 0 ∈ fk := by
          rw [List.getD_eq_getElem fk 0 hq]
          exact List.getElem_mem hq
        refine ⟨⟨off, flipBit fk q j, lk⟩ :: rest, by simp, ?_, ?_⟩
        · intro x hx
          rcases List.mem_cons.1 hx with rfl | hx
          · refine ⟨hw1, by rw [hfklen]; exact hw2, hw3, ?_, hw5⟩
            intro b hb
            rcases List.mem_or_eq_of_mem_set hb with hb | rfl
            · exact hw4 b hb
            · exact Nat.xor_lt_two_pow (hw4 _ hdm)
                (Nat.pow_lt_pow_right (by norm_num) hj)
          · exact hwf x (List.mem_cons_of_mem _ hx)
        · rw [encEntries_cons, encEntries_cons, flipBit_append_left _ _ (6 + q) j hlt]
          congr 1
          have hsplit : encEntry ⟨off, fk, lk⟩ =
              (enc32 off ++ enc16 fk.length) ++ (fk ++ (enc16 lk.length ++ lk)) := by
            unfold encEntry
            simp [List.append_assoc]
          have hpre : (enc32 off ++ enc16 fk.length).length = 6 := by simp [enc32, enc16]
          rw [hsplit,
            show 6 + q = (enc32 off ++ enc16 fk.length).length + q from by rw [hpre],
            flipBit_append_right, flipBit_append_left fk _ q j hq]
          show encEntry ⟨off, flipBit fk q j, lk⟩ = _
          unfold encEntry
          rw [show (⟨off, flipBit fk q j, lk⟩ : BlockMeta).first_key.length = fk.length
            from hfklen]
          simp [List.append_assoc]
      · -- last-key byte q
        have hlklen : (flipBit lk q j).length = lk.length := length_flipBit lk q j
        have hdm : lk.getD q 0 ∈ lk := by
          rw [List.getD_eq_getElem lk 0 hq]
          exact List.getElem_mem hq
        refine ⟨⟨off, fk, flipBit lk q j⟩ :: rest, by simp, ?_, ?_⟩
        · intro x hx
          rcases List.mem_cons.1 hx with rfl | hx
          · refine ⟨hw1, hw2, by rw [hlklen]; exact hw3, hw4, ?_⟩
            intro b hb
            rcases List.mem_or_eq_of_mem_set hb with hb | rfl
            · exact hw5 b hb
            · exact Nat.xor_lt_two_pow (hw5 _ hdm)
                (Nat.pow_lt_pow_right (by norm_num) hj)
          · exact hwf x (List.mem_cons_of_mem _ hx)
        · rw [encEntries_cons, encEntries_cons,
            flipBit_append_left _ _ (8 + fk.length + q) j hlt]
          congr 1
          have hsplit : encEntry ⟨off, fk, lk⟩ =
              (enc32 off ++ enc16 fk.length ++ fk ++ enc16 lk.length) ++ lk := rfl
          have hpre : (enc32 off ++ enc16 fk.length ++ fk ++ enc16 lk.length).length =
              8 + fk.length := by
            simp [enc32, enc16]
            omega
          rw [hsplit,
            show 8 + fk.length + q =
              (enc32 off ++ enc16 fk.length ++ fk ++ enc16 lk.length).length + q
              from by rw [hpre],
            flipBit_append_right]
          show encEntry ⟨off, fk, flipBit lk q j⟩ = _
          unfold encEntry
          rw [show (⟨off, fk, flipBit lk q j⟩ : BlockMeta).last_key.length = lk.length
            from hlklen]
    · -- flip inside a later entry
      obtain ⟨q, hq, rfl⟩ := List.mem_map.1 hp
      obtain ⟨rest', hlen, hwf', henc⟩ := ih hwrest q hq
      refine ⟨m :: rest', by simp [hlen], ?_, ?_⟩
      · intro x hx
        rcases List.mem_cons.1 hx with rfl | hx
        · exact hwf x (List.mem_cons_self _ _)
        · exact hwf' x hx
      · rw [encEntries_cons, encEntries_cons, henc, flipBit_append_right]

/-- C8 counterexample to the claim as stated: for the one-entry metadata
list `[⟨0, [], []⟩]`, flipping bit 1 of byte 3 — the low byte of the
leading count field, changing the count from 1 to 3 — makes
`decode_block_meta` over-read the buffer and panic, not fail with a
checksum-mismatch error. -/
theorem meta_flip_claim_counterexample :
    3 < (encodeBlockMeta [⟨0, [], []⟩]).length ∧
      decodeBlockMeta (flipBit (encodeBlockMeta [⟨0, [], []⟩]) 3 1) = .panik := by
  constructor
  · decide
  · decide

/-- C8 (amended): for well-formed metadata, `decode(encode(M)) = M`; and
flipping any single bit outside the count field and the key-length fields
— i.e. in an entry's offset field, in key content bytes, or in the
trailing CRC — causes `decode_block_meta` to fail with a
checksum-mismatch error.  (A flip inside the count or a length field
still corrupts the buffer but can panic on an out-of-range parse instead
of reporting the checksum mismatch.) -/
theorem meta_roundtrip_and_flip (ms : List BlockMeta) (hne : ms ≠ [])
    (hwf : metaWf ms) (hn : ms.length < 2 ^ 32) :
    decodeBlockMeta (encodeBlockMeta ms) = .ok ms ∧
      ∀ p ∈ metaContentPositions ms, ∀ j < 8,
        decodeBlockMeta (flipBit (encodeBlockMeta ms) p j) = .err := by
  have hbytes : isBytes (encEntries ms) := isBytes_encEntries ms hwf
  have hcrc : crc32 (encEntries ms) < 2 ^ 32 := crc32_lt _ hbytes
  have hform : encodeBlockMeta ms =
      enc32 ms.length ++ (encEntries ms ++ enc32 (crc32 (encEntries ms))) := by
    unfold encodeBlockMeta
    simp [List.append_assoc]
  constructor
  · rw [hform, decodeBlockMeta_enc ms _ hwf hn hcrc, if_pos rfl]
  · intro p hp j hj
    unfold metaContentPositions at hp
    rcases List.mem_append.1 hp with hp | hp
    · -- content flip inside the entry region
      obtain ⟨q, hq, rfl⟩ := List.mem_map.1 hp
      have hqlt : q < (encEntries ms).length := entriesContentPos_lt ms q hq
      obtain ⟨ms', hlen, hwf', henc⟩ := entriesContent_flip ms hwf q j hq hj
      have hstep : flipBit (encodeBlockMeta ms) (4 + q) j =
          enc32 ms.length ++
            (flipBit (encEntries ms) q j ++ enc32 (crc32 (encEntries ms))) := by
        rw [hform, show (4 : ℕ) + q = (enc32 ms.length).length + q from by rw [length_enc32],
          flipBit_append_right]
        congr 1
        exact flipBit_append_left _ _ q j hqlt
      have hb' : (encEntries ms).getD q 0 ^^^ 2 ^ j < 256 := by
        have h1 : (encEntries ms).getD q 0 < 2 ^ 8 := by
          have : (encEntries ms).getD q 0 ∈ encEntries ms := by
            rw [List.getD_eq_getElem _ 0 hqlt]
            exact List.getElem_mem hqlt
          have := hbytes _ this
          omega
        have := Nat.xor_lt_two_pow h1 (Nat.pow_lt_pow_right (show 1 < 2 by norm_num) hj)
        omega
      have hne2 : crc32 (encEntries ms') ≠ crc32 (encEntries ms) := by
        rw [henc]
        exact crc32_set_ne (encEntries ms) q _ hbytes hqlt hb' (xor_two_pow_ne _ j)
      rw [hstep, ← henc, ← hlen,
        decodeBlockMeta_enc ms' _ hwf' (by rw [hlen]; exact hn) hcrc,
        if_neg fun hcc => hne2 hcc.symm]
    · -- flip inside the trailing CRC field
      obtain ⟨q, hq, rfl⟩ := List.mem_map.1 hp
      rw [List.mem_range] at hq
      have hstep : flipBit (encodeBlockMeta ms) (4 + (encEntries ms).length + q) j =
          enc32 ms.length ++ (encEntries ms ++
            enc32 (crc32 (encEntries ms) ^^^ 2 ^ (8 * (3 - q) + j))) := by
        rw [hform,
          show 4 + (encEntries ms).length + q =
            (enc32 ms.length).length + ((encEntries ms).length + q) from by
              rw [length_enc32]
              omega,
          flipBit_append_right, flipBit_append_right]
        congr 2
        exact (enc32_flip _ q j hq hj).symm
      have hc' : crc32 (encEntries ms) ^^^ 2 ^ (8 * (3 - q) + j) < 2 ^ 32 :=
        Nat.xor_lt_two_pow hcrc (Nat.pow_lt_pow_right (by norm_num) (by omega))
      rw [hstep, decodeBlockMeta_enc ms _ hwf hn hc',
        if_neg (xor_two_pow_ne (crc32 (encEntries ms)) (8 * (3 - q) + j))]

set_option maxRecDepth 40000 in
/-- Witness for C8 at a one-entry metadata list: the round-trip holds and
a flip of a first-key content bit (absolute byte position 10) is caught
as a checksum mismatch. -/
theorem meta_roundtrip_and_flip_witness :
    ([⟨0, [97], [98]⟩] : List BlockMeta) ≠ [] ∧
      decodeBlockMeta (encodeBlockMeta [⟨0, [97], [98]⟩]) = .ok [⟨0, [97], [98]⟩] ∧
      (10 : Nat) ∈ metaContentPositions [⟨0, [97], [98]⟩] ∧
      decodeBlockMeta (flipBit (encodeBlockMeta [⟨0, [97], [98]⟩]) 10 3) = .err :=
  ⟨by decide,
   (meta_roundtrip_and_flip [⟨0, [97], [98]⟩] (by decide) (by decide) (by decide)).1,
   by decide,
   (meta_roundtrip_and_flip [⟨0, [97], [98]⟩] (by decide) (by decide) (by decide)).2
     10 (by decide) 3 (by decide)⟩

/-! ## Merge iterator: order and heap lemmas -/

theorem srcLe_refl (a : Src) : srcLe a a := Or.inr ⟨rfl, le_refl _⟩

theorem srcLe_of_srcLt {a b : Src} (h : srcLt a b) : srcLe a b := by
  rcases h with h | ⟨h1, h2⟩
  · exact Or.inl h
  · exact Or.inr ⟨h1, le_of_lt h2⟩

theorem srcLe_trans {a b c : Src} (h1 : srcLe a b) (h2 : srcLe b c) : srcLe a c := by
  rcases h1 with h1 | ⟨h1, h1'⟩ <;> rcases h2 with h2 | ⟨h2, h2'⟩
  · exact Or.inl (bsLt_trans _ _ _ h1 h2)
  · exact Or.inl (h2 ▸ h1)
  · exact Or.inl (h1 ▸ h2)
  · exact Or.inr ⟨h1.trans h2, h1'.trans h2'⟩

theorem srcLe_total (a b : Src) : srcLe a b ∨ srcLe b a := by
  rcases hc : bsCmp (srcKey a) (srcKey b) with _ | _ | _
  · exact Or.inl (Or.inl hc)
  · have he : srcKey a = srcKey b := (bsCmp_eq_iff _ _).1 hc
    rcases Nat.le_total a.idx b.idx with h | h
    · exact Or.inl (Or.inr ⟨he, h⟩)
    · exact Or.inr (Or.inr ⟨he.symm, h⟩)
  · refine Or.inr (Or.inl ?_)
    unfold bsLt
    rw [bsCmp_swap, hc]
    rfl

theorem srcLe_of_not_lt {a b : Src} (h : ¬ srcLt a b) : srcLe b a := by
  unfold srcLt at h
  push_neg at h
  rcases hc : bsCmp (srcKey b) (srcKey a) with _ | _ | _
  · exact Or.inl hc
  · have he : srcKey b = srcKey a := (bsCmp_eq_iff _ _).1 hc
    refine Or.inr ⟨he, ?_⟩
    have := h.2 he.symm
    omega
  · exfalso
    refine h.1 ?_
    unfold bsLt
    rw [bsCmp_swap, hc]
    rfl

theorem srcLe_key {a b : Src} (h : srcLe a b) : bsLe (srcKey a) (srcKey b) := by
  rcases h with h | ⟨h, _⟩
  · exact bsLe_of_lt h
  · rw [h]
    exact bsLe_refl _

theorem popMin_eq_none_iff (l : List Src) : popMin l = none ↔ l = [] := by
  cases l with
  | nil => simp [popMin]
  | cons s rest =>
    simp only [popMin]
    rcases h : popMin rest with _ | ⟨m, r⟩
    · simp
    · by_cases hle : srcLe s m <;> simp [hle]

theorem popMin_perm (l : List Src) (m : Src) (r : List Src) (h : popMin l = some (m, r)) :
    l.Perm (m :: r) := by
  induction l generalizing m r with
  | nil => simp [popMin] at h
  | cons s rest ih =>
    simp only [popMin] at h
    rcases hr : popMin rest with _ | ⟨m', r'⟩
    · rw [hr] at h
      dsimp only at h
      have : rest = [] := (popMin_eq_none_iff rest).1 hr
      subst this
      simp only [Option.some.injEq, Prod.mk.injEq] at h
      rw [← h.1, ← h.2]
    · rw [hr] at h
      dsimp only at h
      by_cases hle : srcLe s m'
      · rw [if_pos hle] at h
        simp only [Option.some.injEq, Prod.mk.injEq] at h
        rw [← h.1, ← h.2]
      · rw [if_neg hle] at h
        simp only [Option.some.injEq, Prod.mk.injEq] at h
        rw [← h.1, ← h.2]
        exact ((ih m' r' hr).cons s).trans (List.Perm.swap m' s r')

theorem popMin_min (l : List Src) (m : Src) (r : List Src) (h : popMin l = some (m, r)) :
    ∀ x ∈ l, srcLe m x := by
  induction l generalizing m r with
  | nil => simp [popMin] at h
  | cons s rest ih =>
    simp only [popMin] at h
    rcases hr : popMin rest with _ | ⟨m', r'⟩
    · rw [hr] at h
      dsimp only at h
      have : rest = [] := (popMin_eq_none_iff rest).1 hr
      subst this
      simp only [Option.some.injEq, Prod.mk.injEq] at h
      intro x hx
      rcases List.mem_cons.1 hx with rfl | hx
      · rw [← h.1]
        exact srcLe_refl x
      · simp at hx
    · rw [hr] at h
      dsimp only at h
      by_cases hle : srcLe s m'
      · rw [if_pos hle] at h
        simp only [Option.some.injEq, Prod.mk.injEq] at h
        intro x hx
        rw [← h.1]
        rcases List.mem_cons.1 hx with rfl | hx
        · exact srcLe_refl x
        · exact srcLe_trans hle (ih m' r' hr x hx)
      · rw [if_neg hle] at h
        simp only [Option.some.injEq, Prod.mk.injEq] at h
        intro x hx
        have hle' : srcLe m' s := by
          rcases srcLe_total s m' with hh | hh
          · exact absurd hh hle
          · exact hh
        rw [← h.1]
        rcases List.mem_cons.1 hx with rfl | hx
        · exact hle'
        · exact ih m' r' hr x hx

theorem totalLen_cons (s : Src) (l : List Src) :
    totalLen (s :: l) = s.entries.length + totalLen l := by
  simp [totalLen]

theorem totalLen_perm {l1 l2 : List Src} (h : l1.Perm l2) : totalLen l1 = totalLen l2 :=
  (h.map _).sum_eq

theorem srcSorted_suffix {l1 l2 : List (ByteStr × ByteStr)} (h : l1 <:+ l2)
    (hs : srcSorted l2) : srcSorted l1 :=
  hs.sublist ((h.map Prod.fst).sublist)

theorem src_entries_key_ge (s : Src) (hs : srcSorted s.entries) :
    ∀ e ∈ s.entries, bsLe (srcKey s) e.1 := by
  intro e he
  rcases hent : s.entries with _ | ⟨hd, tl⟩
  · rw [hent] at he
    simp at he
  · rw [hent] at he hs
    unfold srcKey
    rw [hent]
    simp only [List.headD_cons]
    rcases List.mem_cons.1 he with rfl | he
    · exact bsLe_refl _
    · unfold srcSorted at hs
      rw [List.map_cons, List.pairwise_cons] at hs
      exact bsLe_of_lt (hs.1 e.1 (List.mem_map_of_mem Prod.fst he))

theorem src_tail_key_gt (s : Src) (hs : srcSorted s.entries) :
    ∀ e ∈ s.entries.tail, bsLt (srcKey s) e.1 := by
  intro e he
  rcases hent : s.entries with _ | ⟨hd, tl⟩
  · rw [hent] at he
    simp at he
  · rw [hent] at he hs
    unfold srcKey
    rw [hent]
    simp only [List.headD_cons, List.tail_cons] at he ⊢
    unfold srcSorted at hs
    rw [List.map_cons, List.pairwise_cons] at hs
    exact hs.1 e.1 (List.mem_map_of_mem Prod.fst he)

theorem bsLt_of_le_ne {a b : ByteStr} (h1 : bsLe a b) (h2 : a ≠ b) : bsLt a b := by
  rcases (bsLe_iff a b).1 h1 with h | rfl
  · exact h
  · exact absurd rfl h2

theorem srcKey_eq_head {m : Src} {hd : ByteStr × ByteStr} {tl : List (ByteStr × ByteStr)}
    (hme : m.entries = hd :: tl) : srcKey m = hd.1 := by
  unfold srcKey
  rw [hme]
  rfl

/-- The duplicate-skip loop, run with enough fuel: it only shrinks the
heap, leaves only valid sources whose keys are strictly above the current
key, advances sources in place (same index, suffix of the entries), keeps
the index multiset inside the original one, and preserves every entry
whose key differs from the current key. -/
theorem skipDupsF_spec (ck : ByteStr) :
    ∀ (fuel : Nat) (heap : List Src), totalLen heap < fuel →
      (∀ s ∈ heap, s.entries ≠ []) →
      (∀ s ∈ heap, srcSorted s.entries) →
      (∀ s ∈ heap, bsLe ck (srcKey s)) →
      totalLen (skipDupsF fuel ck heap) ≤ totalLen heap ∧
      (∀ s' ∈ skipDupsF fuel ck heap, s'.entries ≠ [] ∧ bsLt ck (srcKey s')) ∧
      (∀ s' ∈ skipDupsF fuel ck heap, ∃ s ∈ heap, s'.idx = s.idx ∧ s'.entries <:+ s.entries) ∧
      List.Subperm ((skipDupsF fuel ck heap).map fun s => s.idx) (heap.map fun s => s.idx) ∧
      (∀ s ∈ heap, ∀ e ∈ s.entries, e.1 ≠ ck →
        ∃ s' ∈ skipDupsF fuel ck heap, s'.idx = s.idx ∧ e ∈ s'.entries) := by
  intro fuel
  induction fuel with
  | zero => intro heap hfuel; omega
  | succ fuel ih =>
    intro heap hfuel hv hs hk
    rcases hpop : popMin heap with _ | ⟨m, rest⟩
    · have : heap = [] := (popMin_eq_none_iff heap).1 hpop
      subst this
      simp only [skipDupsF, hpop]
      exact ⟨le_refl _, by simp, by simp, by simp, by simp⟩
    · have hperm : heap.Perm (m :: rest) := popMin_perm heap m rest hpop
      have hmem_m : m ∈ heap := hperm.symm.subset (List.mem_cons_self m rest)
      have hmem_rest : ∀ s ∈ rest, s ∈ heap := fun s hsr =>
        hperm.symm.subset (List.mem_cons_of_mem m hsr)
      have htl : totalLen heap = m.entries.length + totalLen rest := by
        rw [totalLen_perm hperm, totalLen_cons]
      have hmlen : 1 ≤ m.entries.length := by
        have hne := hv m hmem_m
        cases hme : m.entries with
        | nil => exact absurd hme hne
        | cons a t => simp [hme]
      by_cases hck : srcKey m = ck
      · -- the top shares the current key: advance it
        simp only [skipDupsF, hpop]
        rw [if_pos hck]
        have hmsort := hs m hmem_m
        have htail_gt : ∀ e ∈ m.entries.tail, bsLt ck e.1 := by
          intro e he
          rw [← hck]
          exact src_tail_key_gt m hmsort e he
        by_cases hemp : (srcAdvance m).entries.isEmpty
        · -- the advanced top is exhausted: it is popped
          rw [if_pos hemp]
          have htail_nil : m.entries.tail = [] := by
            simpa [srcAdvance] using hemp
          obtain ⟨c1, c2, c3, c4, c5⟩ := ih rest (by omega)
            (fun s hsr => hv s (hmem_rest s hsr))
            (fun s hsr => hs s (hmem_rest s hsr))
            (fun s hsr => hk s (hmem_rest s hsr))
          refine ⟨by omega, c2, ?_, ?_, ?_⟩
          · intro s' hs'
            obtain ⟨s, hsm, hidx, hsuf⟩ := c3 s' hs'
            exact ⟨s, hmem_rest s hsm, hidx, hsuf⟩
          · refine c4.trans ?_
            have hsub : List.Sublist (rest.map fun s => s.idx)
                ((m :: rest).map fun s => s.idx) := by
              simp only [List.map_cons]
              exact List.sublist_cons_self _ _
            exact hsub.subperm.trans (hperm.symm.map fun s => s.idx).subperm
          · intro s hsm e he hne
            rcases List.mem_cons.1 (hperm.subset hsm) with h1 | h1
            · exfalso
              rcases hme : m.entries with _ | ⟨hd, tl⟩
              · rw [h1, hme] at he
                simp at he
              · have htl0 : tl = [] := by
                  have h2 := htail_nil
                  rw [hme] at h2
                  simpa using h2
                rw [h1, hme, htl0] at he
                simp only [List.mem_singleton] at he
                subst he
                exact hne ((srcKey_eq_head hme) ▸ hck)
            · exact c5 s h1 e he hne
        · -- the advanced top stays in the heap
          rw [if_neg hemp]
          have hm'ne : (srcAdvance m).entries ≠ [] := by
            simpa [srcAdvance, List.isEmpty_iff] using hemp
          have hm'ent : (srcAdvance m).entries = m.entries.tail := rfl
          have hm'idx : (srcAdvance m).idx = m.idx := rfl
          have hm'sort : srcSorted (srcAdvance m).entries :=
            srcSorted_suffix (hm'ent ▸ List.tail_suffix m.entries) hmsort
          have hm'key : bsLe ck (srcKey (srcAdvance m)) := by
            rcases hme' : (srcAdvance m).entries with _ | ⟨hd2, tl2⟩
            · exact absurd hme' hm'ne
            · refine bsLe_of_lt ?_
              rw [srcKey_eq_head hme']
              refine htail_gt hd2 ?_
              rw [← hm'ent, hme']
              exact List.mem_cons_self hd2 tl2
          have hm'len : (srcAdvance m).entries.length = m.entries.length - 1 := by
            rw [hm'ent, List.length_tail]
          have htl2 : totalLen (srcAdvance m :: rest) = totalLen heap - 1 := by
            rw [totalLen_cons, hm'len]
            omega
          obtain ⟨c1, c2, c3, c4, c5⟩ := ih (srcAdvance m :: rest) (by omega)
            (by
              intro s hsr
              rcases List.mem_cons.1 hsr with rfl | hsr
              · exact hm'ne
              · exact hv s (hmem_rest s hsr))
            (by
              intro s hsr
              rcases List.mem_cons.1 hsr with rfl | hsr
              · exact hm'sort
              · exact hs s (hmem_rest s hsr))
            (by
              intro s hsr
              rcases List.mem_cons.1 hsr with rfl | hsr
              · exact hm'key
              · exact hk s (hmem_rest s hsr))
          refine ⟨by omega, c2, ?_, ?_, ?_⟩
          · intro s' hs'
            obtain ⟨s, hsm, hidx, hsuf⟩ := c3 s' hs'
            rcases List.mem_cons.1 hsm with rfl | hsm
            · exact ⟨m, hmem_m, by rw [hidx, hm'idx],
                hsuf.trans (hm'ent ▸ List.tail_suffix m.entries)⟩
            · exact ⟨s, hmem_rest s hsm, hidx, hsuf⟩
          · refine c4.trans ?_
            have he1 : ((srcAdvance m :: rest).map fun s => s.idx) =
                ((m :: rest).map fun s => s.idx) := by
              simp [hm'idx]
            rw [he1]
            exact (hperm.symm.map fun s => s.idx).subperm
          · intro s hsm e he hne
            rcases List.mem_cons.1 (hperm.subset hsm) with h1 | h1
            · rcases hme : m.entries with _ | ⟨hd, tl⟩
              · rw [h1, hme] at he
                simp at he
              · have hetl : e ∈ tl := by
                  rw [h1, hme] at he
                  rcases List.mem_cons.1 he with rfl | he2
                  · exact absurd ((srcKey_eq_head hme) ▸ hck) hne
                  · exact he2
                have hetl' : e ∈ (srcAdvance m).entries := by
                  rw [hm'ent, hme]
                  simpa using hetl
                obtain ⟨s', hs1, hs2, hs3⟩ :=
                  c5 (srcAdvance m) (List.mem_cons_self _ _) e hetl' hne
                exact ⟨s', hs1, by rw [hs2, hm'idx, h1], hs3⟩
            · exact c5 s (List.mem_cons_of_mem _ h1) e he hne
      · -- the top has a different key: the loop exits with the heap intact
        simp only [skipDupsF, hpop]
        rw [if_neg hck]
        have hckm : bsLt ck (srcKey m) :=
          bsLt_of_le_ne (hk m hmem_m) fun h => hck h.symm
        refine ⟨le_refl _, ?_, ?_, List.Subperm.refl _, ?_⟩
        · intro s' hs'
          refine ⟨hv s' hs', ?_⟩
          exact bsLt_of_lt_of_le hckm (srcLe_key (popMin_min heap m rest hpop s' hs'))
        · intro s' hs'
          exact ⟨s', hs', rfl, List.suffix_refl _⟩
        · intro s hsm e he hne
          exact ⟨s, hsm, rfl, he⟩

theorem allSrcs_some (c : Src) (heap : List Src) : allSrcs ⟨some c, heap⟩ = c :: heap := rfl

theorem subperm_nodup {l1 l2 : List Nat} (h : List.Subperm l1 l2) (hn : l2.Nodup) :
    l1.Nodup := by
  obtain ⟨l, hp, hs⟩ := h
  exact hp.nodup_iff.1 (hs.nodup hn)

theorem pairwise_idx_iff (l : List Src) :
    l.Pairwise (fun a b => a.idx ≠ b.idx) ↔ (l.map fun s => s.idx).Nodup :=
  (List.pairwise_map).symm

/-- One `next()` step from a valid state: the invariants are preserved,
every surviving entry's key lies strictly above the consumed key, sources
evolve in place (same index, entries a suffix of what they were), entries
with a different key survive, and the remaining-entry measure drops. -/
theorem mergeNext_spec (c : Src) (heap : List Src) (hcv : c.entries ≠ [])
    (hinv : MergeInv ⟨some c, heap⟩) :
    MergeInv (mergeNext ⟨some c, heap⟩) ∧
    (∀ s' ∈ allSrcs (mergeNext ⟨some c, heap⟩), ∀ e ∈ s'.entries, bsLt (srcKey c) e.1) ∧
    (∀ s' ∈ allSrcs (mergeNext ⟨some c, heap⟩),
      ∃ s ∈ allSrcs ⟨some c, heap⟩, s'.idx = s.idx ∧ s'.entries <:+ s.entries) ∧
    (∀ s ∈ allSrcs ⟨some c, heap⟩, ∀ e ∈ s.entries, e.1 ≠ srcKey c →
      ∃ s' ∈ allSrcs (mergeNext ⟨some c, heap⟩), s'.idx = s.idx ∧ e ∈ s'.entries) ∧
    mergeMeasure (mergeNext ⟨some c, heap⟩) < mergeMeasure ⟨some c, heap⟩ := by
  have hcmem : c ∈ allSrcs ⟨some c, heap⟩ := List.mem_cons_self c heap
  have hheapv : ∀ s ∈ heap, s.entries ≠ [] := hinv.heap_valid
  have hheaps : ∀ s ∈ heap, srcSorted s.entries := fun s hsh =>
    hinv.sorted s (List.mem_cons_of_mem c hsh)
  have hcsort : srcSorted c.entries := hinv.sorted c hcmem
  have hheapk : ∀ s ∈ heap, bsLe (srcKey c) (srcKey s) := fun s hsh =>
    srcLe_key (hinv.minimal c rfl s hsh)
  obtain ⟨d1, d2, d3, d4, d5⟩ := skipDupsF_spec (srcKey c) (totalLen heap + 1) heap
    (by omega) hheapv hheaps hheapk
  have hclen : 1 ≤ c.entries.length := by
    cases hce : c.entries with
    | nil => exact absurd hce hcv
    | cons a t => simp [hce]
  have hc'ent : (srcAdvance c).entries = c.entries.tail := rfl
  have hc'idx : (srcAdvance c).idx = c.idx := rfl
  have hc'sort : srcSorted (srcAdvance c).entries :=
    srcSorted_suffix (hc'ent ▸ List.tail_suffix c.entries) hcsort
  have hc'keys : ∀ e ∈ (srcAdvance c).entries, bsLt (srcKey c) e.1 := fun e he =>
    src_tail_key_gt c hcsort e (hc'ent ▸ he)
  have hc'len : (srcAdvance c).entries.length = c.entries.length - 1 := by
    rw [hc'ent, List.length_tail]
  have hheap1v : ∀ s ∈ skipDupsF (totalLen heap + 1) (srcKey c) heap, s.entries ≠ [] :=
    fun s hsh => (d2 s hsh).1
  have hheap1sort : ∀ s ∈ skipDupsF (totalLen heap + 1) (srcKey c) heap,
      srcSorted s.entries := by
    intro s hsh
    obtain ⟨s0, hs0, _, hsuf⟩ := d3 s hsh
    exact srcSorted_suffix hsuf (hheaps s0 hs0)
  have hheap1keys : ∀ s ∈ skipDupsF (totalLen heap + 1) (srcKey c) heap,
      ∀ e ∈ s.entries, bsLt (srcKey c) e.1 := by
    intro s hsh e he
    exact bsLt_of_lt_of_le (d2 s hsh).2 (src_entries_key_ge s (hheap1sort s hsh) e he)
  have hnodup : ((c :: heap).map fun s => s.idx).Nodup :=
    (pairwise_idx_iff _).1 (by rw [← allSrcs_some]; exact hinv.distinct)
  have hnodup_heap : (heap.map fun s => s.idx).Nodup := by
    rw [List.map_cons] at hnodup
    exact hnodup.of_cons
  have hcidx_not : c.idx ∉ heap.map fun s => s.idx := by
    rw [List.map_cons] at hnodup
    exact (List.nodup_cons.1 hnodup).1
  have hnodup1 : ((skipDupsF (totalLen heap + 1) (srcKey c) heap).map fun s => s.idx).Nodup :=
    subperm_nodup d4 hnodup_heap
  have hcidx_not1 : c.idx ∉ (skipDupsF (totalLen heap + 1) (srcKey c) heap).map
      fun s => s.idx := fun hmem => hcidx_not (d4.subset hmem)
  have hne' : ¬ (c.entries.isEmpty = true) := by simpa using hcv
  have hnext0 : mergeNext ⟨some c, heap⟩ =
      (if (srcAdvance c).entries.isEmpty = true then
        match popMin (skipDupsF (totalLen heap + 1) (srcKey c) heap) with
        | some (m, rest) => ⟨some m, rest⟩
        | none => ⟨some (srcAdvance c), skipDupsF (totalLen heap + 1) (srcKey c) heap⟩
      else
        match popMin (skipDupsF (totalLen heap + 1) (srcKey c) heap) with
        | some (m, rest) =>
          if srcLt m (srcAdvance c) then ⟨some m, srcAdvance c :: rest⟩
          else ⟨some (srcAdvance c), skipDupsF (totalLen heap + 1) (srcKey c) heap⟩
        | none => ⟨some (srcAdvance c), skipDupsF (totalLen heap + 1) (srcKey c) heap⟩) := by
    simp only [mergeNext]
    rw [if_neg hne']
  have hsurv_c : ∀ e ∈ c.entries, e.1 ≠ srcKey c → e ∈ (srcAdvance c).entries := by
    intro e he hne2
    rcases hce : c.entries with _ | ⟨hd, tl⟩
    · rw [hce] at he
      simp at he
    · rw [hce] at he
      rcases List.mem_cons.1 he with rfl | he2
    
      · exact absurd (srcKey_eq_head hce).symm hne2
      · rw [hc'ent, hce]
        simpa using he2
  by_cases hc'e : (srcAdvance c).entries.isEmpty = true
  · -- current exhausted
    have hc'nil : (srcAdvance c).entries = [] := by simpa using hc'e
    rcases hpop1 : popMin (skipDupsF (totalLen heap + 1) (srcKey c) heap) with _ | ⟨mm, rrest⟩
    · -- heap empty too: the merge is exhausted
      have h1nil : skipDupsF (totalLen heap + 1) (srcKey c) heap = [] :=
        (popMin_eq_none_iff _).1 hpop1
      have hnext : mergeNext ⟨some c, heap⟩ =
          ⟨some (srcAdvance c), skipDupsF (totalLen heap + 1) (srcKey c) heap⟩ := by
        rw [hnext0, if_pos hc'e, hpop1]
      rw [hnext, h1nil]
      refine ⟨⟨by simp, ?_, ?_, ?_, by simp, by simp⟩, ?_, ?_, ?_, ?_⟩
      · intro s hsh
        have hss : s = srcAdvance c := by simpa [allSrcs] using hsh
        subst hss
        exact hc'sort
      · rw [show allSrcs ⟨some (srcAdvance c), []⟩ = [srcAdvance c] from rfl]
        exact List.pairwise_singleton _ _
      · intro c0 hc0 s hsh
        simp at hsh
      · intro s' hs'
        have hss : s' = srcAdvance c := by simpa [allSrcs] using hs'
        subst hss
        intro e he
        exact hc'keys e he
      · intro s' hs'
        have hss : s' = srcAdvance c := by simpa [allSrcs] using hs'
        subst hss
        exact ⟨c, hcmem, hc'idx, hc'ent ▸ List.tail_suffix c.entries⟩
      · intro s hsh e he hne2
        rcases List.mem_cons.1 hsh with hsc | hsh2
        · exact ⟨srcAdvance c, List.mem_cons_self _ _, by rw [hc'idx, hsc],
            hsurv_c e (hsc ▸ he) hne2⟩
        · obtain ⟨s', hs1, hs2, hs3⟩ := d5 s hsh2 e he hne2
          rw [h1nil] at hs1
          simp at hs1
      · show mergeMeasure ⟨some (srcAdvance c), []⟩ < mergeMeasure ⟨some c, heap⟩
        unfold mergeMeasure
        simp only [totalLen]
        simp [hc'len]
        omega
    · -- replace current with the popped heap minimum
      have hperm1 : (skipDupsF (totalLen heap + 1) (srcKey c) heap).Perm (mm :: rrest) :=
        popMin_perm _ mm rrest hpop1
      have hmm_mem1 : mm ∈ skipDupsF (totalLen heap + 1) (srcKey c) heap :=
        hperm1.symm.subset (List.mem_cons_self _ _)
      have hrrest_mem1 : ∀ s ∈ rrest, s ∈ skipDupsF (totalLen heap + 1) (srcKey c) heap :=
        fun s hsh => hperm1.symm.subset (List.mem_cons_of_mem mm hsh)
      have hnext : mergeNext ⟨some c, heap⟩ = ⟨some mm, rrest⟩ := by
        rw [hnext0, if_pos hc'e, hpop1]
      rw [hnext]
      have hmem_st' : ∀ s ∈ allSrcs ⟨some mm, rrest⟩,
          s ∈ skipDupsF (totalLen heap + 1) (srcKey c) heap := by
        intro s hsh
        rcases List.mem_cons.1 (by simpa [allSrcs] using hsh) with rfl | hsh2
        · exact hmm_mem1
        · exact hrrest_mem1 s hsh2
      refine ⟨⟨?_, ?_, ?_, ?_, by simp, ?_⟩, ?_, ?_, ?_, ?_⟩
      · exact fun s hsh => hheap1v s (hrrest_mem1 s hsh)
      · exact fun s hsh => hheap1sort s (hmem_st' s hsh)
      · rw [show allSrcs ⟨some mm, rrest⟩ = mm :: rrest from rfl, pairwise_idx_iff]
        exact (hperm1.map fun s => s.idx).nodup_iff.1 hnodup1
      · intro c0 hc0 s hsh
        cases Option.some.inj hc0
        exact popMin_min _ mm rrest hpop1 s (hrrest_mem1 s hsh)
      · intro c0 hc0 hc0e
        cases Option.some.inj hc0
        exact absurd hc0e (hheap1v mm hmm_mem1)
      · intro s' hs' e he
        exact hheap1keys s' (hmem_st' s' hs') e he
      · intro s' hs'
        obtain ⟨s0, hs0, hidx, hsuf⟩ := d3 s' (hmem_st' s' hs')
        exact ⟨s0, List.mem_cons_of_mem c hs0, hidx, hsuf⟩
      · intro s hsh e he hne2
        rcases List.mem_cons.1 hsh with rfl | hsh2
        · have := hsurv_c e he hne2
          rw [hc'nil] at this
          simp at this
        · obtain ⟨s', hs1, hs2, hs3⟩ := d5 s hsh2 e he hne2
          refine ⟨s', ?_, hs2, hs3⟩
          rcases List.mem_cons.1 (hperm1.subset hs1) with rfl | hs4
          · exact List.mem_cons_self _ _
          · exact List.mem_cons_of_mem _ hs4
      · show mergeMeasure ⟨some mm, rrest⟩ < mergeMeasure ⟨some c, heap⟩
        unfold mergeMeasure
        dsimp only
        have h1 : totalLen (skipDupsF (totalLen heap + 1) (srcKey c) heap) =
            mm.entries.length + totalLen rrest := by
          rw [totalLen_perm hperm1, totalLen_cons]
        omega
  · -- current stays valid
    have hc'ne : (srcAdvance c).entries ≠ [] := by simpa using hc'e
    rcases hpop1 : popMin (skipDupsF (totalLen heap + 1) (srcKey c) heap) with _ | ⟨mm, rrest⟩
    · -- empty heap: keep current
      have h1nil : skipDupsF (totalLen heap + 1) (srcKey c) heap = [] :=
        (popMin_eq_none_iff _).1 hpop1
      have hnext : mergeNext ⟨some c, heap⟩ =
          ⟨some (srcAdvance c), skipDupsF (totalLen heap + 1) (srcKey c) heap⟩ := by
        rw [hnext0, if_neg hc'e, hpop1]
      rw [hnext, h1nil]
      refine ⟨⟨by simp, ?_, ?_, ?_, by simp, ?_⟩, ?_, ?_, ?_, ?_⟩
      · intro s hsh
        have hss : s = srcAdvance c := by simpa [allSrcs] using hsh
        subst hss
        exact hc'sort
      · rw [show allSrcs ⟨some (srcAdvance c), []⟩ = [srcAdvance c] from rfl]
        exact List.pairwise_singleton _ _
      · intro c0 hc0 s hsh
        simp at hsh
      · intro c0 hc0 hc0e
        cases Option.some.inj hc0
        exact absurd hc0e hc'ne
      · intro s' hs'
        have hss : s' = srcAdvance c := by simpa [allSrcs] using hs'
        subst hss
        intro e he
        exact hc'keys e he
      · intro s' hs'
        have hss : s' = srcAdvance c := by simpa [allSrcs] using hs'
        subst hss
        exact ⟨c, hcmem, hc'idx, hc'ent ▸ List.tail_suffix c.entries⟩
      · intro s hsh e he hne2
        rcases List.mem_cons.1 hsh with hsc | hsh2
        · exact ⟨srcAdvance c, List.mem_cons_self _ _, by rw [hc'idx, hsc],
            hsurv_c e (hsc ▸ he) hne2⟩
        · obtain ⟨s', hs1, hs2, hs3⟩ := d5 s hsh2 e he hne2
          rw [h1nil] at hs1
          simp at hs1
      · show mergeMeasure ⟨some (srcAdvance c), []⟩ < mergeMeasure ⟨some c, heap⟩
        unfold mergeMeasure
        simp only [totalLen]
        simp [hc'len]
        omega
    · have hperm1 : (skipDupsF (totalLen heap + 1) (srcKey c) heap).Perm (mm :: rrest) :=
        popMin_perm _ mm rrest hpop1
      have hmm_mem1 : mm ∈ skipDupsF (totalLen heap + 1) (srcKey c) heap :=
        hperm1.symm.subset (List.mem_cons_self _ _)
      have hrrest_mem1 : ∀ s ∈ rrest, s ∈ skipDupsF (totalLen heap + 1) (srcKey c) heap :=
        fun s hsh => hperm1.symm.subset (List.mem_cons_of_mem mm hsh)
      have hmeasure : totalLen (skipDupsF (totalLen heap + 1) (srcKey c) heap) =
          mm.entries.length + totalLen rrest := by
        rw [totalLen_perm hperm1, totalLen_cons]
      by_cases hswap : srcLt mm (srcAdvance c)
      · -- swap: the heap top is smaller than the advanced current
        have hnext : mergeNext ⟨some c, heap⟩ = ⟨some mm, srcAdvance c :: rrest⟩ := by
          rw [hnext0, if_neg hc'e, hpop1]
          dsimp only
          rw [if_pos hswap]
        rw [hnext]
        have hmem_st' : ∀ s ∈ allSrcs ⟨some mm, srcAdvance c :: rrest⟩,
            s = srcAdvance c ∨ s ∈ skipDupsF (totalLen heap + 1) (srcKey c) heap := by
          intro s hsh
          have hsh' : s ∈ mm :: srcAdvance c :: rrest := hsh
          rcases List.mem_cons.1 hsh' with hsc | hsh2
          · refine Or.inr ?_
            rw [hsc]
            exact hmm_mem1
          · rcases List.mem_cons.1 hsh2 with hsc | hsh3
            · exact Or.inl hsc
            · exact Or.inr (hrrest_mem1 s hsh3)
        refine ⟨⟨?_, ?_, ?_, ?_, by simp, ?_⟩, ?_, ?_, ?_, ?_⟩
        · intro s hsh
          rcases List.mem_cons.1 hsh with rfl | hsh2
          · exact hc'ne
          · exact hheap1v s (hrrest_mem1 s hsh2)
        · intro s hsh
          rcases hmem_st' s hsh with rfl | hsh2
          · exact hc'sort
          · exact hheap1sort s hsh2
        · rw [show allSrcs ⟨some mm, srcAdvance c :: rrest⟩ = mm :: srcAdvance c :: rrest
            from rfl, pairwise_idx_iff]
          have hpp : ((mm :: srcAdvance c :: rrest).map fun s => s.idx).Perm
              ((srcAdvance c :: mm :: rrest).map fun s => s.idx) := by
            simp only [List.map_cons]
            exact List.Perm.swap _ _ _
          rw [hpp.nodup_iff]
          simp only [List.map_cons, List.nodup_cons]
          refine ⟨?_, ?_⟩
          · rw [hc'idx]
            intro hmem
            refine hcidx_not1 ?_
            rcases List.mem_cons.1 hmem with hmem | hmem
            · rw [hmem]
              exact List.mem_map_of_mem _ hmm_mem1
            · obtain ⟨s, hsm, hse⟩ := List.mem_map.1 hmem
              rw [← hse]
              exact List.mem_map_of_mem _ (hrrest_mem1 s hsm)
          · have := (hperm1.map fun s => s.idx).nodup_iff.1 hnodup1
            simpa using this
        · intro c0 hc0 s hsh
          cases Option.some.inj hc0
          rcases List.mem_cons.1 hsh with rfl | hsh2
          · exact srcLe_of_srcLt hswap
          · exact popMin_min _ mm rrest hpop1 s (hrrest_mem1 s hsh2)
        · intro c0 hc0 hc0e
          cases Option.some.inj hc0
          exact absurd hc0e (hheap1v mm hmm_mem1)
        · intro s' hs' e he
          rcases hmem_st' s' hs' with rfl | hsh2
          · exact hc'keys e he
          · exact hheap1keys s' hsh2 e he
        · intro s' hs'
          rcases hmem_st' s' hs' with rfl | hsh2
          · exact ⟨c, hcmem, hc'idx, hc'ent ▸ List.tail_suffix c.entries⟩
          · obtain ⟨s0, hs0, hidx, hsuf⟩ := d3 s' hsh2
            exact ⟨s0, List.mem_cons_of_mem c hs0, hidx, hsuf⟩
        · intro s hsh e he hne2
          rcases List.mem_cons.1 hsh with hsc | hsh2
          · refine ⟨srcAdvance c, ?_, by rw [hc'idx, hsc], hsurv_c e (hsc ▸ he) hne2⟩
            show srcAdvance c ∈ mm :: srcAdvance c :: rrest
            exact List.mem_cons_of_mem mm (List.mem_cons_self _ _)
          · obtain ⟨s', hs1, hs2, hs3⟩ := d5 s hsh2 e he hne2
            refine ⟨s', ?_, hs2, hs3⟩
            show s' ∈ mm :: srcAdvance c :: rrest
            rcases List.mem_cons.1 (hperm1.subset hs1) with rfl | hs4
            · exact List.mem_cons_self _ _
            · exact List.mem_cons_of_mem _ (List.mem_cons_of_mem _ hs4)
        · show mergeMeasure ⟨some mm, srcAdvance c :: rrest⟩ < mergeMeasure ⟨some c, heap⟩
          unfold mergeMeasure
          dsimp only
          rw [totalLen_cons]
          omega
      · -- no swap: keep the advanced current
        have hnext : mergeNext ⟨some c, heap⟩ =
            ⟨some (srcAdvance c), skipDupsF (totalLen heap + 1) (srcKey c) heap⟩ := by
          rw [hnext0, if_neg hc'e, hpop1]
          dsimp only
          rw [if_neg hswap]
        rw [hnext]
        have hc'le : srcLe (srcAdvance c) mm := srcLe_of_not_lt hswap
        have hmem_st' : ∀ s ∈ allSrcs ⟨some (srcAdvance c),
            skipDupsF (totalLen heap + 1) (srcKey c) heap⟩,
            s = srcAdvance c ∨ s ∈ skipDupsF (totalLen heap + 1) (srcKey c) heap := by
          intro s hsh
          have hsh' : s ∈ srcAdvance c :: skipDupsF (totalLen heap + 1) (srcKey c) heap := hsh
          exact List.mem_cons.1 hsh'
        refine ⟨⟨?_, ?_, ?_, ?_, by simp, ?_⟩, ?_, ?_, ?_, ?_⟩
        · exact hheap1v
        · intro s hsh
          rcases hmem_st' s hsh with rfl | hsh2
          · exact hc'sort
          · exact hheap1sort s hsh2
        · rw [show allSrcs ⟨some (srcAdvance c), skipDupsF (totalLen heap + 1) (srcKey c) heap⟩
            = srcAdvance c :: skipDupsF (totalLen heap + 1) (srcKey c) heap from rfl,
            pairwise_idx_iff]
          simp only [List.map_cons, List.nodup_cons]
          exact ⟨by rw [hc'idx]; exact hcidx_not1, hnodup1⟩
        · intro c0 hc0 s hsh
          cases Option.some.inj hc0
          refine srcLe_trans hc'le ?_
          rcases List.mem_cons.1 (hperm1.subset hsh) with hsc | hsh2
          · rw [hsc]
            exact srcLe_refl mm
          · exact popMin_min _ mm rrest hpop1 s (hrrest_mem1 s hsh2)
        · intro c0 hc0 hc0e
          cases Option.some.inj hc0
          exact absurd hc0e hc'ne
        · intro s' hs' e he
          rcases hmem_st' s' hs' with rfl | hsh2
          · exact hc'keys e he
          · exact hheap1keys s' hsh2 e he
        · intro s' hs'
          rcases hmem_st' s' hs' with rfl | hsh2
          · exact ⟨c, hcmem, hc'idx, hc'ent ▸ List.tail_suffix c.entries⟩
          · obtain ⟨s0, hs0, hidx, hsuf⟩ := d3 s' hsh2
            exact ⟨s0, List.mem_cons_of_mem c hs0, hidx, hsuf⟩
        · intro s hsh e he hne2
          rcases List.mem_cons.1 hsh with hsc | hsh2
          · exact ⟨srcAdvance c, List.mem_cons_self _ _, by rw [hc'idx, hsc],
              hsurv_c e (hsc ▸ he) hne2⟩
          · obtain ⟨s', hs1, hs2, hs3⟩ := d5 s hsh2 e he hne2
            exact ⟨s', List.mem_cons_of_mem _ hs1, hs2, hs3⟩
        · show mergeMeasure ⟨some (srcAdvance c),
            skipDupsF (totalLen heap + 1) (srcKey c) heap⟩ < mergeMeasure ⟨some c, heap⟩
          unfold mergeMeasure
          dsimp only
          omega

theorem src_head_mem (s : Src) (h : s.entries ≠ []) :
    (srcKey s, srcVal s) ∈ s.entries := by
  rcases hent : s.entries with _ | ⟨hd, tl⟩
  · exact absurd hent h
  · have hk : srcKey s = hd.1 := srcKey_eq_head hent
    have hv : srcVal s = hd.2 := by
      unfold srcVal
      rw [hent]
      rfl
    rw [hk, hv]
    exact List.mem_cons_self _ _

theorem current_mem_allSrcs {st : MergeSt} {c : Src} (h : st.current = some c) :
    c ∈ allSrcs st := by
  unfold allSrcs
  rw [h]
  exact List.mem_cons_self _ _

theorem totalLen_skipDupsF_le (ck : ByteStr) :
    ∀ (fuel : Nat) (heap : List Src), totalLen (skipDupsF fuel ck heap) ≤ totalLen heap := by
  intro fuel
  induction fuel with
  | zero => intro heap; rw [skipDupsF]
  | succ fuel ih =>
    intro heap
    rcases hpop : popMin heap with _ | ⟨m, rest⟩
    · rw [skipDupsF, hpop]
    · have hperm := popMin_perm heap m rest hpop
      have htot : totalLen heap = m.entries.length + totalLen rest := by
        rw [totalLen_perm hperm, totalLen_cons]
      have htail : (srcAdvance m).entries.length = m.entries.length - 1 := by
        show m.entries.tail.length = _
        rw [List.length_tail]
      by_cases hk : srcKey m = ck
      · by_cases hemp : (srcAdvance m).entries.isEmpty = true
        · have hstep : skipDupsF (fuel + 1) ck heap = skipDupsF fuel ck rest := by
            rw [skipDupsF, hpop]
            dsimp only
            rw [if_pos hk, if_pos hemp]
          rw [hstep]
          have := ih rest
          omega
        · have hstep : skipDupsF (fuel + 1) ck heap =
              skipDupsF fuel ck (srcAdvance m :: rest) := by
            rw [skipDupsF, hpop]
            dsimp only
            rw [if_pos hk, if_neg hemp]
          rw [hstep]
          have h1 := ih (srcAdvance m :: rest)
          rw [totalLen_cons] at h1
          omega
      · have hstep : skipDupsF (fuel + 1) ck heap = heap := by
          rw [skipDupsF, hpop]
          dsimp only
          rw [if_neg hk]
        rw [hstep]

theorem mergeMeasure_next_lt (st : MergeSt) (c : Src) (hc : st.current = some c)
    (hne : c.entries ≠ []) :
    mergeMeasure (mergeNext st) < mergeMeasure st := by
  obtain ⟨cur, heap⟩ := st
  have hc' : cur = some c := hc
  subst hc'
  have hne' : ¬ (c.entries.isEmpty = true) := by simpa using hne
  have hclen : 1 ≤ c.entries.length := by
    cases hce : c.entries with
    | nil => exact absurd hce hne
    | cons a t => simp [hce]
  have hc'len : (srcAdvance c).entries.length = c.entries.length - 1 := by
    show c.entries.tail.length = _
    rw [List.length_tail]
  have hd1 : totalLen (skipDupsF (totalLen heap + 1) (srcKey c) heap) ≤ totalLen heap :=
    totalLen_skipDupsF_le (srcKey c) (totalLen heap + 1) heap
  have hnext0 : mergeNext ⟨some c, heap⟩ =
      (if (srcAdvance c).entries.isEmpty = true then
        match popMin (skipDupsF (totalLen heap + 1) (srcKey c) heap) with
        | some (m, rest) => ⟨some m, rest⟩
        | none => ⟨some (srcAdvance c), skipDupsF (totalLen heap + 1) (srcKey c) heap⟩
      else
        match popMin (skipDupsF (totalLen heap + 1) (srcKey c) heap) with
        | some (m, rest) =>
          if srcLt m (srcAdvance c) then ⟨some m, srcAdvance c :: rest⟩
          else ⟨some (srcAdvance c), skipDupsF (totalLen heap + 1) (srcKey c) heap⟩
        | none => ⟨some (srcAdvance c), skipDupsF (totalLen heap + 1) (srcKey c) heap⟩) := by
    simp only [mergeNext]
    rw [if_neg hne']
  rcases hpop1 : popMin (skipDupsF (totalLen heap + 1) (srcKey c) heap) with _ | ⟨mm, rrest⟩
  · have h1nil : skipDupsF (totalLen heap + 1) (srcKey c) heap = [] :=
      (popMin_eq_none_iff _).1 hpop1
    by_cases hc'e : (srcAdvance c).entries.isEmpty = true
    · rw [hnext0, if_pos hc'e, hpop1]
      unfold mergeMeasure
      dsimp only
      rw [h1nil]
      simp only [totalLen, List.map_nil, List.sum_nil]
      omega
    · rw [hnext0, if_neg hc'e, hpop1]
      unfold mergeMeasure
      dsimp only
      rw [h1nil]
      simp only [totalLen, List.map_nil, List.sum_nil]
      omega
  · have hperm1 := popMin_perm _ mm rrest hpop1
    have hmeas : totalLen (skipDupsF (totalLen heap + 1) (srcKey c) heap) =
        mm.entries.length + totalLen rrest := by
      rw [totalLen_perm hperm1, totalLen_cons]
    by_cases hc'e : (srcAdvance c).entries.isEmpty = true
    · rw [hnext0, if_pos hc'e, hpop1]
      unfold mergeMeasure
      dsimp only
      omega
    · rw [hnext0, if_neg hc'e, hpop1]
      dsimp only
      by_cases hswap : srcLt mm (srcAdvance c)
      · rw [if_pos hswap]
        unfold mergeMeasure
        dsimp only
        rw [totalLen_cons]
        omega
      · rw [if_neg hswap]
        unfold mergeMeasure
        dsimp only
        omega

theorem emittedF_fuel : ∀ (n : Nat) (st : MergeSt) (f1 f2 : Nat),
    mergeMeasure st ≤ n → mergeMeasure st < f1 → mergeMeasure st < f2 →
    emittedF f1 st = emittedF f2 st := by
  intro n
  induction n with
  | zero =>
    intro st f1 f2 hn h1 h2
    obtain ⟨g1, rfl⟩ : ∃ g, f1 = g + 1 := ⟨f1 - 1, by omega⟩
    obtain ⟨g2, rfl⟩ : ∃ g, f2 = g + 1 := ⟨f2 - 1, by omega⟩
    obtain ⟨cur, heap⟩ := st
    rcases cur with _ | c
    · rfl
    · have hnil : c.entries = [] := by
        unfold mergeMeasure totalLen at hn
        dsimp only at hn
        exact List.length_eq_zero.1 (by omega)
      rw [emittedF, emittedF]
      dsimp only
      rw [if_pos (by simp [hnil]), if_pos (by simp [hnil])]
  | succ n ih =>
    intro st f1 f2 hn h1 h2
    obtain ⟨g1, rfl⟩ : ∃ g, f1 = g + 1 := ⟨f1 - 1, by omega⟩
    obtain ⟨g2, rfl⟩ : ∃ g, f2 = g + 1 := ⟨f2 - 1, by omega⟩
    obtain ⟨cur, heap⟩ := st
    rcases cur with _ | c
    · rfl
    · rw [emittedF, emittedF]
      dsimp only
      by_cases hemp : c.entries.isEmpty = true
      · rw [if_pos hemp, if_pos hemp]
      · rw [if_neg hemp, if_neg hemp]
        have hlt : mergeMeasure (mergeNext ⟨some c, heap⟩) < mergeMeasure ⟨some c, heap⟩ :=
          mergeMeasure_next_lt _ c rfl (by simpa using hemp)
        congr 1
        exact ih (mergeNext ⟨some c, heap⟩) g1 g2 (by omega) (by omega) (by omega)

theorem mergeEmitted_cons (st : MergeSt) (c : Src) (hc : st.current = some c)
    (hne : c.entries ≠ []) :
    mergeEmitted st = (srcKey c, srcVal c) :: mergeEmitted (mergeNext st) := by
  obtain ⟨cur, heap⟩ := st
  have hc' : cur = some c := hc
  subst hc'
  have hlt : mergeMeasure (mergeNext ⟨some c, heap⟩) < mergeMeasure ⟨some c, heap⟩ :=
    mergeMeasure_next_lt _ c rfl hne
  unfold mergeEmitted
  rw [emittedF]
  dsimp only
  rw [if_neg (by simpa using hne)]
  congr 1
  exact emittedF_fuel (mergeMeasure ⟨some c, heap⟩) (mergeNext ⟨some c, heap⟩)
    (mergeMeasure ⟨some c, heap⟩) (mergeMeasure (mergeNext ⟨some c, heap⟩) + 1)
    (le_of_lt hlt) hlt (Nat.lt_succ_self _)

theorem mergeEmitted_eq_nil (st : MergeSt)
    (h : ∀ c, st.current = some c → c.entries = []) : mergeEmitted st = [] := by
  obtain ⟨cur, heap⟩ := st
  rcases cur with _ | c
  · unfold mergeEmitted
    rw [emittedF]
  · unfold mergeEmitted
    rw [emittedF]
    dsimp only
    rw [if_pos (by simp [h c rfl])]

theorem mergeEmitted_chain : ∀ (n : Nat) (st : MergeSt), mergeMeasure st ≤ n →
    MergeInv st → ((mergeEmitted st).map Prod.fst).Chain' bsLt := by
  intro n
  induction n with
  | zero =>
    intro st hn hinv
    have hnil : ∀ c, st.current = some c → c.entries = [] := by
      intro c hc
      obtain ⟨cur, heap⟩ := st
      have hc' : cur = some c := hc
      subst hc'
      unfold mergeMeasure totalLen at hn
      dsimp only at hn
      exact List.length_eq_zero.1 (by omega)
    rw [mergeEmitted_eq_nil st hnil]
    simp
  | succ n ih =>
    intro st hn hinv
    rcases hcur : st.current with _ | c
    · rw [mergeEmitted_eq_nil st (fun c0 hc0 => by rw [hcur] at hc0; cases hc0)]
      simp
    · by_cases hne : c.entries = []
      · rw [mergeEmitted_eq_nil st
          (fun c0 hc0 => by rw [hcur] at hc0; cases Option.some.inj hc0; exact hne)]
        simp
      · obtain ⟨cur, heap⟩ := st
        have hc' : cur = some c := hcur
        subst hc'
        obtain ⟨hinv', hgt, hsub, hsurv, hltm⟩ := mergeNext_spec c heap hne hinv
        rw [mergeEmitted_cons _ c rfl hne, List.map_cons, List.chain'_cons']
        refine ⟨?_, ih (mergeNext ⟨some c, heap⟩) (by omega) hinv'⟩
        intro b hb
        rcases hcur2 : (mergeNext ⟨some c, heap⟩).current with _ | c2
        · rw [mergeEmitted_eq_nil _ (fun c0 hc0 => by rw [hcur2] at hc0; cases hc0)] at hb
          simp at hb
        · by_cases hne2 : c2.entries = []
          · rw [mergeEmitted_eq_nil _
              (fun c0 hc0 => by rw [hcur2] at hc0; cases Option.some.inj hc0; exact hne2)]
              at hb
            simp at hb
          · rw [mergeEmitted_cons _ c2 hcur2 hne2, List.map_cons] at hb
            simp only [List.head?_cons, Option.mem_def, Option.some.injEq] at hb
            have hc2mem : c2 ∈ allSrcs (mergeNext ⟨some c, heap⟩) := current_mem_allSrcs hcur2
            have hlt2 := hgt c2 hc2mem (srcKey c2, srcVal c2) (src_head_mem c2 hne2)
            first
            | rw [← hb]
              exact hlt2
            | rw [hb]
              exact hlt2

theorem totalLen_eq_zero {l : List Src} (h : totalLen l = 0) :
    ∀ s ∈ l, s.entries.length = 0 := by
  intro s hs
  unfold totalLen at h
  exact List.sum_eq_zero_iff.1 h _ (List.mem_map_of_mem _ hs)

theorem mergeEmitted_no_key (K : ByteStr) : ∀ (n : Nat) (st : MergeSt),
    mergeMeasure st ≤ n → MergeInv st →
    (∀ s ∈ allSrcs st, ∀ w, (K, w) ∉ s.entries) →
    (mergeEmitted st).filter (fun e => e.1 = K) = [] := by
  intro n
  induction n with
  | zero =>
    intro st hn hinv hno
    rw [mergeEmitted_eq_nil st ?h]
    case h =>
      intro c hc
      obtain ⟨cur, heap⟩ := st
      have hc' : cur = some c := hc
      subst hc'
      unfold mergeMeasure totalLen at hn
      dsimp only at hn
      exact List.length_eq_zero.1 (by omega)
    rfl
  | succ n ih =>
    intro st hn hinv hno
    rcases hcur : st.current with _ | c
    · rw [mergeEmitted_eq_nil st (fun c0 hc0 => by rw [hcur] at hc0; cases hc0)]
      rfl
    · by_cases hne : c.entries = []
      · rw [mergeEmitted_eq_nil st
          (fun c0 hc0 => by rw [hcur] at hc0; cases Option.some.inj hc0; exact hne)]
        rfl
      · obtain ⟨cur, heap⟩ := st
        have hc' : cur = some c := hcur
        subst hc'
        obtain ⟨hinv', hgt, hsub, hsurv, hltm⟩ := mergeNext_spec c heap hne hinv
        rw [mergeEmitted_cons _ c rfl hne]
        have hkne : ¬ (srcKey c = K) := by
          intro hk
          exact hno c (current_mem_allSrcs rfl) (srcVal c) (hk ▸ src_head_mem c hne)
        rw [List.filter_cons, if_neg (by simpa using hkne)]
        apply ih (mergeNext ⟨some c, heap⟩) (by omega) hinv'
        intro s' hs' w hw
        obtain ⟨s, hsmem, hidx, hsuf⟩ := hsub s' hs'
        exact hno s hsmem w (hsuf.subset hw)

theorem src_key_unique (s : Src) (hs : srcSorted s.entries) (hne : s.entries ≠ [])
    {v : ByteStr} (hv : (srcKey s, v) ∈ s.entries) : v = srcVal s := by
  rcases hent : s.entries with _ | ⟨hd, tl⟩
  · exact absurd hent hne
  · rw [hent] at hv
    rcases List.mem_cons.1 hv with heq | htl
    · have hval : srcVal s = hd.2 := by
        unfold srcVal
        rw [hent]
        rfl
      rw [hval, ← heq]
    · have := src_tail_key_gt s hs (srcKey s, v) (by rw [hent]; simpa using htl)
      exact absurd this (bsLt_irrefl _)

theorem mergeEmitted_owner (K v : ByteStr) (i : Nat) : ∀ (n : Nat) (st : MergeSt),
    mergeMeasure st ≤ n → MergeInv st → isOwner K i v st →
    (mergeEmitted st).filter (fun e => e.1 = K) = [(K, v)] := by
  intro n
  induction n with
  | zero =>
    intro st hn hinv hown
    exfalso
    obtain ⟨⟨s0, hs0, hidx, hkv⟩, hminx⟩ := hown
    obtain ⟨cur, heap⟩ := st
    have hheap0 : totalLen heap = 0 := by
      unfold mergeMeasure at hn
      dsimp only at hn
      rcases cur with _ | c <;> (dsimp only at hn; omega)
    rcases cur with _ | c
    · have hmem : s0 ∈ heap := by simpa [allSrcs] using hs0
      have : s0.entries = [] := List.length_eq_zero.1 (totalLen_eq_zero hheap0 s0 hmem)
      rw [this] at hkv
      simp at hkv
    · have hclen : c.entries.length = 0 := by
        unfold mergeMeasure at hn
        dsimp only at hn
        omega
      have hmem : s0 ∈ c :: heap := by simpa [allSrcs] using hs0
      rcases List.mem_cons.1 hmem with hsc | hheapm
      · rw [hsc, List.length_eq_zero.1 hclen] at hkv
        simp at hkv
      · have : s0.entries = [] := List.length_eq_zero.1 (totalLen_eq_zero hheap0 s0 hheapm)
        rw [this] at hkv
        simp at hkv
  | succ n ih =>
    intro st hn hinv hown
    obtain ⟨⟨s0, hs0, hidx, hkv⟩, hminx⟩ := hown
    obtain ⟨cur, heap⟩ := st
    rcases cur with _ | c
    · exfalso
      have hh : heap = [] := hinv.none_heap rfl
      subst hh
      have : s0 ∈ ([] : List Src) := by simpa [allSrcs] using hs0
      simp at this
    · by_cases hne : c.entries = []
      · exfalso
        have hh : heap = [] := hinv.invalid_heap c rfl hne
        subst hh
        have hs0c : s0 = c := by
          have : s0 ∈ ([c] : List Src) := by simpa [allSrcs] using hs0
          simpa using this
        rw [hs0c, hne] at hkv
        simp at hkv
      · obtain ⟨hinv', hgt, hsub, hsurv, hltm⟩ := mergeNext_spec c heap hne hinv
        rw [mergeEmitted_cons _ c rfl hne]
        by_cases hkc : srcKey c = K
        · have hcK : (K, srcVal c) ∈ c.entries := hkc ▸ src_head_mem c hne
          have hilec : i ≤ c.idx := hminx c (current_mem_allSrcs rfl) ⟨srcVal c, hcK⟩
          have hs0c : s0 = c := by
            have hs0mem : s0 ∈ c :: heap := by simpa [allSrcs] using hs0
            rcases List.mem_cons.1 hs0mem with h | hheapm
            · exact h
            · exfalso
              have hle : srcLe c s0 := hinv.minimal c rfl s0 hheapm
              have hsort0 : srcSorted s0.entries := hinv.sorted s0 hs0
              have hKge : bsLe (srcKey s0) K := src_entries_key_ge s0 hsort0 (K, v) hkv
              have hcidxle : c.idx ≤ s0.idx := by
                rcases hle with hlt | ⟨heq, hidxle⟩
                · rw [hkc] at hlt
                  exact absurd (bsLt_of_lt_of_le hlt hKge) (bsLt_irrefl _)
                · exact hidxle
              have hne_idx : c.idx ≠ s0.idx := by
                have hpw := hinv.distinct
                rw [show allSrcs ⟨some c, heap⟩ = c :: heap from rfl,
                  List.pairwise_cons] at hpw
                exact hpw.1 s0 hheapm
              omega
          have hvv : v = srcVal c := by
            apply src_key_unique c (hinv.sorted c (current_mem_allSrcs rfl)) hne
            rw [hkc]
            exact hs0c ▸ hkv
          rw [List.filter_cons, if_pos (by simp [hkc])]
          have htail : (mergeEmitted (mergeNext ⟨some c, heap⟩)).filter
              (fun e => e.1 = K) = [] := by
            apply mergeEmitted_no_key K n (mergeNext ⟨some c, heap⟩) (by omega) hinv'
            intro s' hs' w hw
            have hbad := hgt s' hs' (K, w) hw
            rw [hkc] at hbad
            exact absurd hbad (bsLt_irrefl _)
          rw [htail, hkc, hvv]
        · rw [List.filter_cons, if_neg (by simpa using hkc)]
          apply ih (mergeNext ⟨some c, heap⟩) (by omega) hinv'
          constructor
          · obtain ⟨s', hs'mem, hs'idx, hs'kv⟩ :=
              hsurv s0 hs0 (K, v) hkv (fun h => hkc h.symm)
            exact ⟨s', hs'mem, by rw [hs'idx, hidx], hs'kv⟩
          · rintro s' hs' ⟨w, hw⟩
            obtain ⟨s, hsmem, hsidx, hsuf⟩ := hsub s' hs'
            have hle := hminx s hsmem ⟨w, hsuf.subset hw⟩
            omega

theorem srcValid_iff (s : Src) : srcValid s = true ↔ s.entries ≠ [] := by
  unfold srcValid
  simp

theorem getLastD_all_empty : ∀ (L : List (List (ByteStr × ByteStr)))
    (d : List (ByteStr × ByteStr)),
    L.all List.isEmpty = true → d = [] → L.getLastD d = [] := by
  intro L
  induction L with
  | nil =>
    intro d _ hd
    simpa using hd
  | cons a t ih =>
    intro d hall hd
    have hae : a = [] := by simpa using List.all_eq_true.1 hall a (List.mem_cons_self a t)
    have htall : t.all List.isEmpty = true := by
      rw [List.all_eq_true] at hall ⊢
      exact fun x hx => hall x (List.mem_cons_of_mem a hx)
    rw [List.getLastD_cons]
    exact ih a htall hae

theorem mem_createHeap_iff (iters : List (List (ByteStr × ByteStr))) (s : Src) :
    s ∈ (iters.enum.map fun p => Src.mk p.1 p.2).filter srcValid ↔
      s.idx < iters.length ∧ s.entries = iters.getD s.idx [] ∧ s.entries ≠ [] := by
  obtain ⟨i, ents⟩ := s
  dsimp only
  rw [List.mem_filter]
  constructor
  · rintro ⟨hmap, hvalid⟩
    obtain ⟨p, hp, hps⟩ := List.mem_map.1 hmap
    obtain ⟨pi, pe⟩ := p
    dsimp only at hps
    cases hps
    have hsome := List.mk_mem_enum_iff_getElem?.1 hp
    obtain ⟨hlen, hget⟩ := List.getElem?_eq_some.1 hsome
    refine ⟨hlen, ?_, (srcValid_iff _).1 hvalid⟩
    rw [List.getD_eq_getElem iters [] hlen, hget]
  · rintro ⟨hlen, hent, hne⟩
    refine ⟨?_, (srcValid_iff _).2 hne⟩
    apply List.mem_map.2
    refine ⟨(i, ents), ?_, rfl⟩
    apply List.mk_mem_enum_iff_getElem?.2
    rw [List.getElem?_eq_some]
    refine ⟨hlen, ?_⟩
    rw [← List.getD_eq_getElem iters [] hlen, ← hent]

theorem createHeap_ne_nil (iters : List (List (ByteStr × ByteStr)))
    (hall : ¬ iters.all List.isEmpty = true) :
    (iters.enum.map fun p => Src.mk p.1 p.2).filter srcValid ≠ [] := by
  intro hnil
  apply hall
  rw [List.all_eq_true]
  intro l hl
  obtain ⟨i, hi, hget⟩ := List.getElem_of_mem hl
  by_contra hlne
  have hlne' : l ≠ [] := by simpa using hlne
  have hmem : Src.mk i l ∈ (iters.enum.map fun p => Src.mk p.1 p.2).filter srcValid := by
    rw [mem_createHeap_iff]
    exact ⟨hi, by rw [List.getD_eq_getElem iters [] hi, hget], hlne'⟩
  rw [hnil] at hmem
  simp at hmem

theorem mergeCreate_eq_main (iters : List (List (ByteStr × ByteStr)))
    (hni : ¬ iters.isEmpty = true) (hall : ¬ iters.all List.isEmpty = true) :
    ∃ m rest, popMin ((iters.enum.map fun p => Src.mk p.1 p.2).filter srcValid)
        = some (m, rest) ∧ mergeCreate iters = ⟨some m, rest⟩ := by
  rcases hpop : popMin ((iters.enum.map fun p => Src.mk p.1 p.2).filter srcValid)
    with _ | ⟨m, rest⟩
  · exact absurd ((popMin_eq_none_iff _).1 hpop) (createHeap_ne_nil iters hall)
  · refine ⟨m, rest, hpop, ?_⟩
    unfold mergeCreate
    rw [if_neg hni, if_neg hall]
    dsimp only
    rw [hpop]

theorem mergeCreate_allSrcs_perm (iters : List (List (ByteStr × ByteStr)))
    (hni : ¬ iters.isEmpty = true) (hall : ¬ iters.all List.isEmpty = true) :
    (allSrcs (mergeCreate iters)).Perm
      ((iters.enum.map fun p => Src.mk p.1 p.2).filter srcValid) := by
  obtain ⟨m, rest, hpop, heq⟩ := mergeCreate_eq_main iters hni hall
  rw [heq]
  exact (popMin_perm _ m rest hpop).symm

theorem mergeInv_none : MergeInv ⟨none, []⟩ := by
  refine ⟨?_, ?_, ?_, ?_, ?_, ?_⟩
  · intro s hs
    simp at hs
  · intro s hs
    simp [allSrcs] at hs
  · show (allSrcs ⟨none, []⟩).Pairwise _
    exact List.Pairwise.nil
  · exact fun c hc => Option.noConfusion hc
  · intro _
    rfl
  · exact fun c hc => Option.noConfusion hc

theorem mergeInv_invalid_single (k : Nat) : MergeInv ⟨some ⟨k, []⟩, []⟩ := by
  refine ⟨?_, ?_, ?_, ?_, ?_, ?_⟩
  · intro s hs
    simp at hs
  · intro s hs
    have hss : s = ⟨k, []⟩ := by simpa [allSrcs] using hs
    rw [hss]
    exact List.Pairwise.nil
  · show (allSrcs ⟨some ⟨k, []⟩, []⟩).Pairwise _
    exact List.pairwise_singleton _ _
  · intro c hc s hs
    simp at hs
  · intro _
    rfl
  · intro c hc he
    rfl

theorem mergeCreate_inv (iters : List (List (ByteStr × ByteStr)))
    (hsorted : ∀ l ∈ iters, srcSorted l) : MergeInv (mergeCreate iters) := by
  by_cases hni : iters.isEmpty = true
  · have h : iters = [] := by simpa using hni
    subst h
    exact mergeInv_none
  · by_cases hall : iters.all List.isEmpty = true
    · have hC : mergeCreate iters = ⟨some ⟨0, iters.getLastD []⟩, []⟩ := by
        unfold mergeCreate
        rw [if_neg hni, if_pos hall]
      rw [hC, getLastD_all_empty iters [] hall rfl]
      exact mergeInv_invalid_single 0
    · obtain ⟨m, rest, hpop, heq⟩ := mergeCreate_eq_main iters hni hall
      rw [heq]
      have hperm := popMin_perm _ m rest hpop
      have hmem_all : ∀ s ∈ allSrcs ⟨some m, rest⟩,
          s ∈ (iters.enum.map fun p => Src.mk p.1 p.2).filter srcValid :=
        fun s hs => hperm.symm.subset hs
      refine ⟨?_, ?_, ?_, ?_, ?_, ?_⟩
      · intro s hs
        have hmem := hperm.symm.subset (List.mem_cons_of_mem m hs)
        exact ((mem_createHeap_iff iters s).1 hmem).2.2
      · intro s hs
        obtain ⟨hlt, hent, hne⟩ := (mem_createHeap_iff iters s).1 (hmem_all s hs)
        rw [hent, List.getD_eq_getElem iters [] hlt]
        exact hsorted _ (List.getElem_mem hlt)
      · rw [show allSrcs ⟨some m, rest⟩ = m :: rest from rfl, pairwise_idx_iff]
        refine (hperm.map fun s => s.idx).nodup_iff.1 ?_
        have hsub : List.Sublist ((iters.enum.map fun p => Src.mk p.1 p.2).filter srcValid)
            (iters.enum.map fun p => Src.mk p.1 p.2) := List.filter_sublist _
        have hsub2 := hsub.map fun s => s.idx
        have hfst : ((iters.enum.map fun p => Src.mk p.1 p.2).map fun s => s.idx) =
            List.range iters.length := by
          rw [List.map_map]
          have hcomp : ((fun s => s.idx) ∘
              fun p : Nat × List (ByteStr × ByteStr) => Src.mk p.1 p.2) = Prod.fst := by
            funext p
            rfl
          rw [hcomp, List.enum_map_fst]
        rw [hfst] at hsub2
        exact hsub2.nodup (List.nodup_range iters.length)
      · intro c0 hc0 s hs
        cases Option.some.inj hc0
        exact popMin_min _ m rest hpop s (hperm.symm.subset (List.mem_cons_of_mem m hs))
      · exact fun h => Option.noConfusion h
      · intro c0 hc0 he
        cases Option.some.inj hc0
        have hmem := hperm.symm.subset (List.mem_cons_self m rest)
        exact absurd he ((mem_createHeap_iff iters m).1 hmem).2.2

/-! ## C2: merge ordering -/

/-- C2: for every `MergeIterator` created over source iterators that each
yield keys in strictly increasing order, the sequence of keys observed via
`key()` across successive successful `next()` calls while `is_valid()`
holds is non-decreasing. -/
theorem merge_ordering (iters : List (List (ByteStr × ByteStr)))
    (hsorted : ∀ l ∈ iters, srcSorted l) :
    ((mergeEmitted (mergeCreate iters)).map Prod.fst).Chain' bsLe :=
  List.Chain'.imp (fun _ _ h => bsLe_of_lt h)
    (mergeEmitted_chain (mergeMeasure (mergeCreate iters)) (mergeCreate iters) le_rfl
      (mergeCreate_inv iters hsorted))

/-- Witness for C2 on two overlapping sorted sources. -/
theorem merge_ordering_witness :
    (∀ l ∈ ([[([97], [48]), ([99], [49])], [([98], [50]), ([99], [51])]] :
        List (List (ByteStr × ByteStr))), srcSorted l) ∧
    ((mergeEmitted (mergeCreate
        ([[([97], [48]), ([99], [49])], [([98], [50]), ([99], [51])]] :
          List (List (ByteStr × ByteStr))))).map Prod.fst).Chain' bsLe :=
  ⟨by decide, merge_ordering
    ([[([97], [48]), ([99], [49])], [([98], [50]), ([99], [51])]] :
      List (List (ByteStr × ByteStr))) (by decide)⟩

/-! ## C1: merge dedup precedence -/

/-- C1: for every `MergeIterator` created from sources that each yield
keys in strictly increasing order, and every key `K` held by more than one
source: `K` is emitted exactly once, and the value emitted with it is the
one held by the source with the smallest list index among those containing
`K` (index `i` here, by the minimality hypothesis `hmin`). -/
theorem merge_dedup_precedence (iters : List (List (ByteStr × ByteStr)))
    (K v : ByteStr) (i : Nat)
    (hsorted : ∀ l ∈ iters, srcSorted l)
    (hi : i < iters.length)
    (hmem : (K, v) ∈ iters.getD i [])
    (hmin : ∀ j, j < i → ∀ w, (K, w) ∉ iters.getD j [])
    (hdup : ∃ j, j ≠ i ∧ j < iters.length ∧ ∃ w, (K, w) ∈ iters.getD j []) :
    (mergeEmitted (mergeCreate iters)).filter (fun e => e.1 = K) = [(K, v)] := by
  have hni : ¬ iters.isEmpty = true := by
    intro h
    have h0 : iters = [] := by simpa using h
    subst h0
    simp at hi
  have hgetmem : iters.getD i [] ∈ iters := by
    rw [List.getD_eq_getElem iters [] hi]
    exact List.getElem_mem hi
  have hall : ¬ iters.all List.isEmpty = true := by
    intro h
    have h1 := List.all_eq_true.1 h _ hgetmem
    have h2 : iters.getD i [] = [] := by simpa using h1
    rw [h2] at hmem
    simp at hmem
  have hperm := mergeCreate_allSrcs_perm iters hni hall
  apply mergeEmitted_owner K v i (mergeMeasure (mergeCreate iters)) (mergeCreate iters)
    le_rfl (mergeCreate_inv iters hsorted)
  constructor
  · refine ⟨⟨i, iters.getD i []⟩, ?_, rfl, hmem⟩
    rw [hperm.mem_iff, mem_createHeap_iff]
    refine ⟨hi, rfl, ?_⟩
    intro h0
    have h0' : iters.getD i [] = [] := h0
    rw [h0'] at hmem
    simp at hmem
  · rintro s hs ⟨w, hw⟩
    have hsH := hperm.subset hs
    obtain ⟨hlt, hent, hne0⟩ := (mem_createHeap_iff iters s).1 hsH
    by_contra hlt2
    push_neg at hlt2
    refine hmin s.idx hlt2 w ?_
    rw [← hent]
    exact hw

/-- Witness for C1 on three sources all containing key `[107]`: the value
emitted is the one from source 0, and it is emitted exactly once. -/
theorem merge_dedup_precedence_witness :
    (([107], [118, 48]) ∈
      ([[([107], [118, 48])], [([107], [118, 49]), ([109], [119, 49])],
        [([107], [118, 50]), ([110], [120, 50])]] :
        List (List (ByteStr × ByteStr))).getD 0 [] ∧
     ([107], [118, 49]) ∈
      ([[([107], [118, 48])], [([107], [118, 49]), ([109], [119, 49])],
        [([107], [118, 50]), ([110], [120, 50])]] :
        List (List (ByteStr × ByteStr))).getD 1 []) ∧
    (mergeEmitted (mergeCreate
      ([[([107], [118, 48])], [([107], [118, 49]), ([109], [119, 49])],
        [([107], [118, 50]), ([110], [120, 50])]] :
        List (List (ByteStr × ByteStr))))).filter (fun e => e.1 = [107]) =
      [([107], [118, 48])] :=
  ⟨⟨by decide, by decide⟩,
    merge_dedup_precedence
      ([[([107], [118, 48])], [([107], [118, 49]), ([109], [119, 49])],
        [([107], [118, 50]), ([110], [120, 50])]] :
        List (List (ByteStr × ByteStr)))
      [107] [118, 48] 0 (by decide) (by decide) (by decide)
      (fun j hj => absurd hj (Nat.not_lt_zero j))
      ⟨1, by decide, by decide, [118, 49], by decide⟩⟩
